import Mathlib

/-!
# Verification of the Aura performance substrate

Shallow embedding of the two core engines of the repository:

* `src/backend/performance/intelligent_cache.py` — the two-tier cache
  (`IntelligentCache`, `CacheEntry`, eviction strategies, prefetch worker);
* `src/backend/performance/async_pipeline.py` — the priority task pipeline
  (`AsyncPipeline`, `PipelineTask`, submit / dequeue / retry / cancel /
  dependency resolution).

Conventions of the embedding:

* Python `dict` / `OrderedDict` become association lists (`List (key × value)`)
  preserving insertion order; assignment replaces in place (keeping the
  position, as `OrderedDict` does) or appends when the key is new.
* Python wall-clock times (`time.time()`) become explicit `Int` parameters
  (`now`); TTLs are `Option Int` (`None` = no TTL).  Python floats that only
  enter orderings (the adaptive eviction scores, the hit rate) are modelled
  as exact rationals `ℚ`.
* `pickle.dumps` sizing of a value is modelled by an arbitrary size function
  `sz : α → Nat` carried in the configuration.
* Opaque work closures are not stored; the outcome of executing a task's
  work is passed to `executeTask` as an `Except ε ρ` value.
* `SecurityValidator.sanitize_filename` resolves to the fallback class at
  the top of `intelligent_cache.py` (no `aura` package and no
  `simple_validator` module exist in the repository), which returns the
  filename unchanged; it is therefore the identity here.
-/

namespace Aura

/-! ## Cache data model (`intelligent_cache.py`) -/

/-- `CacheStrategy` enum (`intelligent_cache.py` lines 43-47). -/
inductive CacheStrategy where
  | lru
  | lfu
  | ttl
  | adaptive
deriving DecidableEq, Repr

/-- `CacheLevel` enum (lines 50-53). -/
inductive CacheLevel where
  | memory
  | disk
  | distributed
deriving DecidableEq, Repr

/-- `CacheEntry` dataclass (lines 56-77).  `metadata` is a constant
`{'level': 'memory'}` for every memory entry and is omitted. -/
structure CacheEntry (α : Type) where
  key : String
  value : α
  created_at : Int
  accessed_at : Int
  access_count : Nat
  ttl : Option Int
  size_bytes : Nat
deriving DecidableEq, Repr

/-- `CacheEntry.is_expired` (lines 68-72): no TTL never expires, otherwise
expired once `time.time() - created_at > ttl`. -/
def CacheEntry.is_expired (e : CacheEntry α) (now : Int) : Bool :=
  match e.ttl with
  | none => false
  | some t => decide (now - e.created_at > t)

/-- `CacheEntry.touch` (lines 74-77). -/
def CacheEntry.touch (e : CacheEntry α) (now : Int) : CacheEntry α :=
  { e with accessed_at := now, access_count := e.access_count + 1 }

/-- `CacheStats` dataclass (lines 80-91).  `average_access_time`,
`memory_usage_mb` and `disk_usage_mb` are wall-clock / `psutil`
measurements and are not modelled. -/
structure CacheStats where
  hits : Nat := 0
  misses : Nat := 0
  evictions : Nat := 0
  size_bytes : Int := 0
  entry_count : Nat := 0
  hit_rate : ℚ := 0
deriving DecidableEq, Repr

/-- The configuration slice of `IntelligentCache.__init__` (lines 97-106)
relevant to the modelled operations, together with the serialized-size
function modelling `len(pickle.dumps value)`. -/
structure CacheConfig (α : Type) where
  max_memory_mb : Nat := 512
  max_entries : Nat := 10000
  default_ttl : Option Int := some 3600
  strategy : CacheStrategy := .adaptive
  enable_disk_cache : Bool := true
  prefetch_enabled : Bool := true
  sz : α → Nat

/-- The memory budget in bytes: `max_memory_mb * 1024 * 1024`
(`_would_exceed_memory_limit`, line 370). -/
def CacheConfig.maxBytes (cfg : CacheConfig α) : Int :=
  (cfg.max_memory_mb : Int) * 1024 * 1024

/-- One disk-cache blob, as written by `_set_disk` (lines 302-332): the
pickled dict `{'value': v, 'created_at': t, 'ttl': ttl}`.  Compression and
the byte-level layout do not affect the recovered fields and are omitted. -/
structure DiskEntry (α : Type) where
  value : α
  created_at : Int
  ttl : Option Int
deriving DecidableEq, Repr

/-- The mutable state of an `IntelligentCache` instance: `memory_cache`
  (an `OrderedDict`), `stats`, the disk tier (one blob per key),
  `access_times` / `access_patterns`, the prefetch queue and the
  registered prefetch callbacks (a `dict` in registration order). -/
structure CacheState (α : Type) where
  memory_cache : List (String × CacheEntry α) := []
  stats : CacheStats := {}
  disk_cache : List (String × DiskEntry α) := []
  access_times : List (String × List Int) := []
  access_patterns : List (String × Nat) := []
  prefetch_queue : List String := []
  prefetch_callbacks : List (String × (String → Option α)) := []

/-! ### Association-list primitives

`dict`/`OrderedDict` assignment replaces the value in place when the key
exists (keeping its position) and appends otherwise; `del` removes the
unique binding. -/

/-- `d[k] = v` on an (ordered) dict. -/
def alReplace (k : String) (v : β) : List (String × β) → List (String × β)
  | [] => [(k, v)]
  | (k', v') :: rest =>
    if k' = k then (k, v) :: rest else (k', v') :: alReplace k v rest

/-- `del d[k]` on a dict (no-op when the key is absent; every call site in
the source either guards with a membership test or holds a key known to be
present). -/
def alErase (k : String) : List (String × β) → List (String × β)
  | [] => []
  | (k', v') :: rest =>
    if k' = k then rest else (k', v') :: alErase k rest

/-- Append one element to the list stored under `k`, creating the entry if
absent (`submit_task` lines 229-231). -/
def alAppendEntry (k : String) (x : γ) (l : List (String × List γ)) :
    List (String × List γ) :=
  alReplace k ((l.lookup k).getD [] ++ [x]) l

/-- Sum of `size_bytes` over the hot tier. -/
def sumBytes (mc : List (String × CacheEntry α)) : Nat :=
  (mc.map (fun p => p.2.size_bytes)).sum

/-! ### Cache operations -/

/-- `_record_access_pattern` (lines 513-529). -/
def recordAccessPattern (st : CacheState α) (now : Int) (key : String) :
    CacheState α :=
  let times := (st.access_times.lookup key).getD [] ++ [now]
  let cutoff := now - 3600
  let times := times.filter (fun t => cutoff < t)
  { st with
    access_times := alReplace key times st.access_times,
    access_patterns := alReplace key times.length st.access_patterns }

/-- `_update_hit_rate` (lines 718-722); the Python float percentage is the
exact rational here. -/
def updateHitRate (s : CacheStats) : CacheStats :=
  let total := s.hits + s.misses
  if 0 < total then { s with hit_rate := ((s.hits : ℚ) / (total : ℚ)) * 100 }
  else s

/-- `_would_exceed_memory_limit` (lines 368-371): compares
`stats.size_bytes + additional` against the byte budget. -/
def wouldExceedMemoryLimit (cfg : CacheConfig α) (st : CacheState α)
    (additional : Nat) : Bool :=
  decide (st.stats.size_bytes + (additional : Int) > cfg.maxBytes)

/-- `_set_disk` (lines 302-332): writes the blob for `key` (overwriting any
previous one).  Disk-IO failure paths are not modelled. -/
def setDisk (cfg : CacheConfig α) (st : CacheState α) (now : Int)
    (key : String) (value : α) (ttl : Option Int) : Bool × CacheState α :=
  if cfg.enable_disk_cache then
    (true, { st with disk_cache := alReplace key ⟨value, now, ttl⟩ st.disk_cache })
  else (false, st)

/-- `_get_from_disk` (lines 334-366): missing file or disabled tier gives
`None`; an expired blob is unlinked and gives `None`. -/
def getFromDisk (cfg : CacheConfig α) (st : CacheState α) (now : Int)
    (key : String) : Option α × CacheState α :=
  if cfg.enable_disk_cache then
    match st.disk_cache.lookup key with
    | none => (none, st)
    | some d =>
      match d.ttl with
      | some t =>
        if now - d.created_at > t then
          (none, { st with disk_cache := alErase key st.disk_cache })
        else (some d.value, st)
      | none => (some d.value, st)
  else (none, st)

/-- `collectLRUKeys` is the first loop of `_evict_lru` (lines 390-396):
walk the `OrderedDict` from the front collecting keys; after adding an
entry's size, stop as soon as the freed total reaches `needed`. -/
def collectLRUKeys : List (String × CacheEntry α) → Int → Int → List String
  | [], _, _ => []
  | (k, e) :: rest, freed, needed =>
    let freed' := freed + (e.size_bytes : Int)
    if freed' ≥ needed then [k] else k :: collectLRUKeys rest freed' needed

/-- One eviction step, shared by every eviction loop: optionally demote
the entry to disk, delete it from the hot tier, deduct its bytes and
count the eviction. -/
def evictOne (cfg : CacheConfig α) (now : Int) (st : CacheState α)
    (k : String) (e : CacheEntry α) (save : Bool) : CacheState α :=
  let st := if save then (setDisk cfg st now k e.value e.ttl).2 else st
  { st with
    memory_cache := alErase k st.memory_cache,
    stats := { st.stats with
      size_bytes := st.stats.size_bytes - (e.size_bytes : Int),
      evictions := st.stats.evictions + 1 } }

/-- The removal loop of `_evict_lru` (lines 398-409): for each collected
key still present, optionally demote to disk (`access_count > 1` and disk
enabled), delete it, and adjust `size_bytes` / `evictions`. -/
def removeLRUKeys (cfg : CacheConfig α) (now : Int) :
    CacheState α → List String → CacheState α
  | st, [] => st
  | st, k :: rest =>
    match st.memory_cache.lookup k with
    | none => removeLRUKeys cfg now st rest
    | some e =>
      removeLRUKeys cfg now
        (evictOne cfg now st k e (cfg.enable_disk_cache && e.access_count > 1))
        rest

/-- `_evict_lru` (lines 385-409). -/
def evictLRU (cfg : CacheConfig α) (st : CacheState α) (now : Int)
    (needed : Int) : CacheState α :=
  removeLRUKeys cfg now st (collectLRUKeys st.memory_cache 0 needed)

/-- The common eviction loop of `_evict_lfu` / `_evict_ttl` /
`_evict_adaptive`: walk a pre-sorted candidate list, optionally demoting to
disk (the per-entry flag), deleting the entry, adjusting the statistics,
and stopping once the freed bytes reach `needed`. -/
def evictWalk (cfg : CacheConfig α) (now : Int) :
    CacheState α → List (String × CacheEntry α × Bool) → Int → Int → CacheState α
  | st, [], _, _ => st
  | st, (k, e, save) :: rest, freed, needed =>
    let st := evictOne cfg now st k e save
    let freed' := freed + (e.size_bytes : Int)
    if freed' ≥ needed then st else evictWalk cfg now st rest freed' needed

/-- `_evict_lfu` (lines 411-431): stable sort by ascending `access_count`;
demote to disk when the disk tier is enabled and `access_count > 1`. -/
def evictLFU (cfg : CacheConfig α) (st : CacheState α) (now : Int)
    (needed : Int) : CacheState α :=
  let sorted := st.memory_cache.mergeSort
    (fun a b => a.2.access_count ≤ b.2.access_count)
  evictWalk cfg now st
    (sorted.map (fun p => (p.1, p.2, cfg.enable_disk_cache ∧ p.2.access_count > 1)))
    0 needed

/-- `_evict_ttl` (lines 433-456): only entries carrying a TTL are
candidates, stably sorted by ascending `created_at + ttl - now`; no disk
demotion. -/
def evictTTLPolicy (cfg : CacheConfig α) (st : CacheState α) (now : Int)
    (needed : Int) : CacheState α :=
  let withTtl := st.memory_cache.filter (fun p => p.2.ttl.isSome)
  let sorted := withTtl.mergeSort (fun a b =>
    a.2.created_at + (a.2.ttl.getD 0) - now ≤ b.2.created_at + (b.2.ttl.getD 0) - now)
  evictWalk cfg now st (sorted.map (fun p => (p.1, p.2, false))) 0 needed

/-- `max(..., default=1)` over access counts (`_evict_adaptive` line 470):
the default applies only to an empty cache; otherwise the true maximum
(which may be `0`). -/
def maxAccessCount (mc : List (String × CacheEntry α)) : Nat :=
  match mc with
  | [] => 1
  | _ => (mc.map (fun p => p.2.access_count)).foldr max 0

/-- `max(..., default=1)` over entry sizes (line 474). -/
def maxEntrySize (mc : List (String × CacheEntry α)) : Nat :=
  match mc with
  | [] => 1
  | _ => (mc.map (fun p => p.2.size_bytes)).foldr max 0

/-- The composite score of `_evict_adaptive` (lines 465-490), with Python
floats modelled as exact rationals.  Note: when `maxAccessCount` (resp. a
TTL used as divisor) is `0`, Python raises `ZeroDivisionError`, the
exception is swallowed by `set` (line 261) and the cache is left unchanged
— which also preserves every invariant proved below; rational division by
zero yields `0` here and the eviction proceeds. -/
def adaptiveScore (mc : List (String × CacheEntry α)) (now : Int)
    (e : CacheEntry α) : ℚ :=
  let recency : ℚ := 1 / (1 + ((now : ℚ) - (e.accessed_at : ℚ)) / 3600)
  let frequency : ℚ := (e.access_count : ℚ) / (maxAccessCount mc : ℚ)
  let sizeScore : ℚ := 1 - (e.size_bytes : ℚ) / (maxEntrySize mc : ℚ)
  let ttlScore : ℚ :=
    match e.ttl with
    | some t =>
      let remaining : ℚ := max 0 ((t : ℚ) - ((now : ℚ) - (e.created_at : ℚ)))
      min 1 (remaining / (t : ℚ))
    | none => 1
  (0.4 : ℚ) * recency + (0.3 : ℚ) * frequency
    + (0.2 : ℚ) * sizeScore + (0.1 : ℚ) * ttlScore

/-- `_evict_adaptive` (lines 458-511): stable sort by ascending score;
demote to disk when disk is enabled, `access_count > 2` and the score
exceeds `0.3`. -/
def evictAdaptive (cfg : CacheConfig α) (st : CacheState α) (now : Int)
    (needed : Int) : CacheState α :=
  let scored := st.memory_cache.map
    (fun p => (p.1, p.2, adaptiveScore st.memory_cache now p.2))
  let sorted := scored.mergeSort (fun a b => a.2.2 ≤ b.2.2)
  evictWalk cfg now st
    (sorted.map (fun q =>
      (q.1, q.2.1,
        cfg.enable_disk_cache ∧ q.2.1.access_count > 2 ∧ q.2.2 > (0.3 : ℚ))))
    0 needed

/-- `_evict_entries` (lines 373-383). -/
def evictEntries (cfg : CacheConfig α) (st : CacheState α) (now : Int)
    (needed : Int) : CacheState α :=
  match cfg.strategy with
  | .lru => evictLRU cfg st now needed
  | .lfu => evictLFU cfg st now needed
  | .ttl => evictTTLPolicy cfg st now needed
  | .adaptive => evictAdaptive cfg st now needed

/-- Lines 278-300 of `_set_memory`: build the entry (fresh
`access_count = 0`), deduct an overwritten entry's bytes, store (dict
assignment: in place on overwrite, appended when new), account the new
bytes and record the access pattern. -/
def setMemoryStore (cfg : CacheConfig α) (st : CacheState α) (now : Int)
    (key : String) (value : α) (ttl : Option Int) (size_bytes : Nat) :
    Bool × CacheState α :=
  let entry : CacheEntry α :=
    { key := key, value := value, created_at := now, accessed_at := now,
      access_count := 0, ttl := ttl, size_bytes := size_bytes }
  let st :=
    match st.memory_cache.lookup key with
    | some old =>
      { st with stats :=
        { st.stats with size_bytes := st.stats.size_bytes - (old.size_bytes : Int) } }
    | none => st
  let mc := alReplace key entry st.memory_cache
  let st := { st with
    memory_cache := mc,
    stats := { st.stats with
      size_bytes := st.stats.size_bytes + (size_bytes : Int),
      entry_count := mc.length } }
  (true, recordAccessPattern st now key)

/-- `_set_memory` (lines 265-300): size the value, evict if the budget
would be exceeded, then store. -/
def setMemory (cfg : CacheConfig α) (st : CacheState α) (now : Int)
    (key : String) (value : α) (ttl : Option Int) : Bool × CacheState α :=
  let size_bytes := cfg.sz value
  let st :=
    if wouldExceedMemoryLimit cfg st size_bytes then
      evictEntries cfg st now (size_bytes : Int)
    else st
  setMemoryStore cfg st now key value ttl size_bytes

/-- `IntelligentCache.set` (lines 241-263): substitute the default TTL for
an absent one and dispatch on the level (`DISTRIBUTED` shares the memory
path). -/
def IntelligentCache.set (cfg : CacheConfig α) (st : CacheState α)
    (now : Int) (key : String) (value : α) (ttl : Option Int)
    (level : CacheLevel) : Bool × CacheState α :=
  let ttl := match ttl with
    | none => cfg.default_ttl
    | some t => some t
  match level with
  | .memory => setMemory cfg st now key value ttl
  | .distributed => setMemory cfg st now key value ttl
  | .disk => setDisk cfg st now key value ttl

/-- `_find_related_keys` (lines 543-562): cache keys sharing with `key` a
common prefix longer than half of `key`'s length
(`common_prefix_len > len(key) * 0.5`, i.e. `2·lcp > len key`). -/
def lcpLen : List Char → List Char → Nat
  | c1 :: r1, c2 :: r2 => if c1 = c2 then lcpLen r1 r2 + 1 else 0
  | _, _ => 0

/-- `_find_related_keys` proper. -/
def findRelatedKeys (st : CacheState α) (key : String) : List String :=
  (st.memory_cache.map Prod.fst).filter (fun ck =>
    ck ≠ key ∧ 2 * lcpLen key.toList ck.toList > key.length)

/-- `_schedule_prefetch` (lines 531-541): enqueue up to three related keys
that are not in the memory cache.  (Since `_find_related_keys` draws its
candidates from the memory cache's own keys, the membership filter makes
this a no-op; the definition keeps the source's structure.) -/
def schedulePrefetch (st : CacheState α) (key : String) : CacheState α :=
  let related := (findRelatedKeys st key).take 3
  let toAdd := related.filter (fun k => (st.memory_cache.lookup k).isNone)
  { st with prefetch_queue := st.prefetch_queue ++ toAdd }

/-- The shared miss tail of `get` (lines 227-235): count the miss, refresh
the hit rate and (when enabled) schedule prefetches. -/
def getMissTail (cfg : CacheConfig α) (st : CacheState α) (key : String) :
    CacheState α :=
  let st := { st with
    stats := updateHitRate { st.stats with misses := st.stats.misses + 1 } }
  if cfg.prefetch_enabled then schedulePrefetch st key else st

/-- `IntelligentCache.get` (lines 180-239).  The expired-entry branch
(lines 194-197) deletes the entry, counts a miss and returns the default
immediately — without refreshing the hit rate or scheduling prefetches.
On a memory hit the entry is touched, moved to the back, the access
pattern recorded and a hit counted.  On a memory miss with the disk tier
enabled, an unexpired blob is promoted via `_set_memory` with the default
TTL and counted as a hit. -/
def IntelligentCache.get (cfg : CacheConfig α) (st : CacheState α)
    (now : Int) (key : String) (default : α) : α × CacheState α :=
  match st.memory_cache.lookup key with
  | some entry =>
    if entry.is_expired now then
      (default, { st with
        memory_cache := alErase key st.memory_cache,
        stats := { st.stats with misses := st.stats.misses + 1 } })
    else
      let entry := entry.touch now
      let st := { st with
        memory_cache := alErase key st.memory_cache ++ [(key, entry)] }
      let st := recordAccessPattern st now key
      let st := { st with
        stats := updateHitRate { st.stats with hits := st.stats.hits + 1 } }
      (entry.value, st)
  | none =>
    if cfg.enable_disk_cache then
      match getFromDisk cfg st now key with
      | (some v, st) =>
        let st := (setMemory cfg st now key v cfg.default_ttl).2
        let st := { st with
          stats := updateHitRate { st.stats with hits := st.stats.hits + 1 } }
        (v, st)
      | (none, st) => (default, getMissTail cfg st key)
    else (default, getMissTail cfg st key)

/-- `IntelligentCache.delete` (lines 734-757): remove from the memory tier
(adjusting `size_bytes` and `entry_count`) and from the disk tier; always
returns `True` on the modelled (exception-free) path. -/
def IntelligentCache.delete (cfg : CacheConfig α) (st : CacheState α)
    (key : String) : Bool × CacheState α :=
  let st :=
    match st.memory_cache.lookup key with
    | some e =>
      let mc := alErase key st.memory_cache
      { st with
        memory_cache := mc,
        stats := { st.stats with
          size_bytes := st.stats.size_bytes - (e.size_bytes : Int),
          entry_count := mc.length } }
    | none => st
  let st :=
    if cfg.enable_disk_cache then
      { st with disk_cache := alErase key st.disk_cache }
    else st
  (true, st)

/-- `register_prefetch_callback` (lines 642-644): dict assignment, so
re-registering a pattern overwrites in place. -/
def registerPrefetchCallback (st : CacheState α) (pattern : String)
    (callback : String → Option α) : CacheState α :=
  { st with prefetch_callbacks := alReplace pattern callback st.prefetch_callbacks }

/-- Substring containment on character lists (Python's `pattern in key`). -/
def charsSubstr (pat : List Char) : List Char → Bool
  | [] => pat.isEmpty
  | c :: rest => pat.isPrefixOf (c :: rest) || charsSubstr pat rest

/-- The pattern test of `_prefetch_worker` (line 625): `pattern in key` is
Python substring containment. -/
def patternMatches (pattern key : String) : Bool :=
  charsSubstr pattern.toList key.toList

/-- The body of `_prefetch_worker` for one dequeued key (lines 623-633):
scan the registered callbacks in registration order, and at the FIRST
pattern contained in the key invoke its producer, inserting a non-`None`
result via `set` (default TTL, memory level), then `break` — later
patterns are never consulted, even when the first producer yields
nothing.  A producer that raises is modelled as returning `none` (the
exception is caught and only logged). -/
def prefetchStep (cfg : CacheConfig α) (st : CacheState α) (now : Int)
    (key : String) : CacheState α :=
  match st.prefetch_callbacks.find? (fun p => patternMatches p.1 key) with
  | some (_, callback) =>
    match callback key with
    | some value => (IntelligentCache.set cfg st now key value none .memory).2
    | none => st
  | none => st

/-! ## Pipeline data model (`async_pipeline.py`) -/

/-- `TaskPriority` enum (lines 44-48). -/
inductive TaskPriority where
  | low
  | normal
  | high
  | critical
deriving DecidableEq, Repr

/-- `TaskStatus` enum (lines 51-56). -/
inductive TaskStatus where
  | pending
  | running
  | completed
  | failed
  | cancelled
deriving DecidableEq, Repr

/-- `PipelineTask` dataclass (lines 59-77).  `func`/`args`/`kwargs` and
`callback` are opaque callables; the outcome of running the work is
supplied to `executeTask` as an `Except ε ρ` argument instead.  `ε` is the
type of recorded errors (Python exceptions), `ρ` of results. -/
structure PipelineTask (ε ρ : Type) where
  id : String
  priority : TaskPriority := .normal
  timeout : Int := 30
  retry_count : Nat := 0
  max_retries : Nat := 3
  status : TaskStatus := .pending
  created_at : Int := 0
  started_at : Option Int := none
  completed_at : Option Int := none
  result : Option ρ := none
  error : Option ε := none
  dependencies : List String := []
deriving DecidableEq, Repr

/-- The four priority queues (`task_queues`, lines 106-111).  The Python
deques hold the task objects; since `_queue_task` re-synchronises
`active_tasks[task.id] = task` on every insertion, the queues are
represented by task ids with the canonical record in `active_tasks`. -/
structure Queues where
  critical : List String := []
  high : List String := []
  normal : List String := []
  low : List String := []
deriving DecidableEq, Repr

/-- The counters of `PipelineMetrics` (lines 80-92) that the modelled
operations touch; timing and `psutil` fields are wall-clock measurements
and are not modelled. -/
structure PipelineMetrics where
  total_tasks : Nat := 0
  completed_tasks : Nat := 0
  failed_tasks : Nat := 0
  peak_concurrent_tasks : Nat := 0
  queue_size : Int := 0
deriving DecidableEq, Repr

/-- The mutable state of an `AsyncPipeline` instance.  `task_futures`
maps a task id to its in-flight asyncio future, modelled by its `done()`
flag (calling `cancel()` on a pending future does not make it done
synchronously). -/
structure PipelineState (ε ρ : Type) where
  task_queues : Queues := {}
  active_tasks : List (String × PipelineTask ε ρ) := []
  task_futures : List (String × Bool) := []
  completed_tasks : List (String × PipelineTask ε ρ) := []
  dependency_graph : List (String × List String) := []
  reverse_dependencies : List (String × List String) := []
  metrics : PipelineMetrics := {}
  is_running : Bool := true
deriving DecidableEq, Repr

/-- The two exceptions `submit_task` can raise (lines 204-209):
`RuntimeError` when the pipeline is stopped and `ValueError` on a
duplicate id.  No other submit-time rejection exists in the source. -/
inductive SubmitError where
  | notRunning
  | duplicateId
deriving DecidableEq, Repr

/-- Read the queue of one priority class. -/
def Queues.ofPriority (q : Queues) : TaskPriority → List String
  | .critical => q.critical
  | .high => q.high
  | .normal => q.normal
  | .low => q.low

/-- Append a task id to the queue of its class. -/
def Queues.push (q : Queues) (p : TaskPriority) (tid : String) : Queues :=
  match p with
  | .critical => { q with critical := q.critical ++ [tid] }
  | .high => { q with high := q.high ++ [tid] }
  | .normal => { q with normal := q.normal ++ [tid] }
  | .low => { q with low := q.low ++ [tid] }

/-- `_queue_task` (lines 245-249): append to the priority queue, record
the object in `active_tasks`, bump `queue_size`. -/
def queueTask (st : PipelineState ε ρ) (t : PipelineTask ε ρ) :
    PipelineState ε ρ :=
  { st with
    task_queues := st.task_queues.push t.priority t.id,
    active_tasks := alReplace t.id t st.active_tasks,
    metrics := { st.metrics with queue_size := st.metrics.queue_size + 1 } }

/-- The dependency scan of `submit_task` (lines 226-236): the `for` loop
returns at the FIRST dependency not found in `completed_tasks`. -/
def firstUncompletedDep (st : PipelineState ε ρ) (deps : List String) :
    Option String :=
  deps.find? (fun d => (st.completed_tasks.lookup d).isNone)

/-- `submit_task` (lines 192-243).  Raises on a stopped pipeline or a
duplicate id.  With a first uncompleted dependency `d`, registers the
single reverse edge `d ↦ task_id`, records the FULL dependency list in
`dependency_graph`, stores the task in `active_tasks` and returns without
queueing (and without touching `metrics.total_tasks`).  Otherwise queues
the task.  No cycle detection of any kind is performed. -/
def submitTask (st : PipelineState ε ρ) (task_id : String)
    (priority : TaskPriority) (timeout : Int) (max_retries : Nat)
    (deps : List String) (now : Int) :
    Except SubmitError (PipelineState ε ρ) :=
  if ¬ st.is_running then .error .notRunning
  else if (st.active_tasks.lookup task_id).isSome
      ∨ (st.completed_tasks.lookup task_id).isSome then .error .duplicateId
  else
    let task : PipelineTask ε ρ :=
      { id := task_id, priority := priority, timeout := timeout,
        max_retries := max_retries, created_at := now, dependencies := deps }
    match if deps.isEmpty then none else firstUncompletedDep st deps with
    | some dep_id =>
      .ok { st with
        reverse_dependencies := alAppendEntry dep_id task_id st.reverse_dependencies,
        dependency_graph := alReplace task_id deps st.dependency_graph,
        active_tasks := alReplace task_id task st.active_tasks }
    | none =>
      let st := queueTask st task
      .ok { st with
        metrics := { st.metrics with total_tasks := st.metrics.total_tasks + 1 } }

/-- `_get_next_task` (lines 270-281): pop from the first non-empty queue
in the strict order CRITICAL, HIGH, NORMAL, LOW; `None` when all are
empty. -/
def getNextTask (st : PipelineState ε ρ) :
    Option (String × PipelineState ε ρ) :=
  match st.task_queues.critical with
  | tid :: rest =>
    some (tid, { st with
      task_queues := { st.task_queues with critical := rest },
      metrics := { st.metrics with queue_size := st.metrics.queue_size - 1 } })
  | [] =>
  match st.task_queues.high with
  | tid :: rest =>
    some (tid, { st with
      task_queues := { st.task_queues with high := rest },
      metrics := { st.metrics with queue_size := st.metrics.queue_size - 1 } })
  | [] =>
  match st.task_queues.normal with
  | tid :: rest =>
    some (tid, { st with
      task_queues := { st.task_queues with normal := rest },
      metrics := { st.metrics with queue_size := st.metrics.queue_size - 1 } })
  | [] =>
  match st.task_queues.low with
  | tid :: rest =>
    some (tid, { st with
      task_queues := { st.task_queues with low := rest },
      metrics := { st.metrics with queue_size := st.metrics.queue_size - 1 } })
  | [] => none

/-- The inner loop of `_process_dependencies` (lines 403-417), walking the
captured dependent list of one just-terminated task id.  For each
dependent still in the graph, the terminated id is removed from its list
(`list.remove`; the id is present for every reachable call); when the
list empties, the graph entry is dropped and a still-PENDING active task
is queued — whether the terminated task COMPLETED or FAILED. -/
def procDeps (cid : String) :
    PipelineState ε ρ → List String → PipelineState ε ρ
  | st, [] => st
  | st, dep_id :: rest =>
    let st :=
      match st.dependency_graph.lookup dep_id with
      | none => st
      | some deps =>
        let deps' := deps.erase cid
        if deps'.isEmpty then
          let st := { st with dependency_graph := alErase dep_id st.dependency_graph }
          match st.active_tasks.lookup dep_id with
          | some task => if task.status = .pending then queueTask st task else st
          | none => st
        else { st with dependency_graph := alReplace dep_id deps' st.dependency_graph }
    procDeps cid st rest

/-- `_process_dependencies` (lines 397-417).  Note the reverse-dependency
entry itself is never removed. -/
def processDependencies (st : PipelineState ε ρ) (cid : String) :
    PipelineState ε ρ :=
  match st.reverse_dependencies.lookup cid with
  | none => st
  | some dependents => procDeps cid st dependents

/-- `_handle_task_failure` (lines 372-395): increment `retry_count`; while
it stays within `max_retries` reset to PENDING and re-queue, else mark
FAILED, stamp `completed_at` and count the failure.  Returns the updated
task object alongside the state (the worker's local alias). -/
def handleTaskFailure (st : PipelineState ε ρ) (task : PipelineTask ε ρ)
    (now : Int) : PipelineState ε ρ × PipelineTask ε ρ :=
  let task := { task with retry_count := task.retry_count + 1 }
  if task.retry_count ≤ task.max_retries then
    let task := { task with status := .pending, started_at := none }
    (queueTask st task, task)
  else
    let task := { task with status := .failed, completed_at := some now }
    ({ st with
      metrics := { st.metrics with failed_tasks := st.metrics.failed_tasks + 1 },
      active_tasks := alReplace task.id task st.active_tasks }, task)

/-- `_execute_task` (lines 283-370) for one attempt of a dequeued task,
with the outcome of awaiting the work future supplied as `outcome`
(`.ok r` for a normal return, `.error e` for a raised exception or the
`TimeoutError` constructed at line 346).  Mutations of the shared task
object are mirrored into `active_tasks`.  The `finally` block drops the
future and, exactly when the status is COMPLETED or FAILED, moves the
task to `completed_tasks` and triggers dependency processing. -/
def executeTask (st : PipelineState ε ρ) (task : PipelineTask ε ρ)
    (outcome : Except ε ρ) (started finished : Int) : PipelineState ε ρ :=
  let task := { task with status := .running, started_at := some started }
  let st := { st with
    active_tasks := alReplace task.id task st.active_tasks,
    task_futures := alReplace task.id false st.task_futures }
  let (st, task) :=
    match outcome with
    | .ok r =>
      let task := { task with
        result := some r, status := .completed, completed_at := some finished }
      ({ st with
        active_tasks := alReplace task.id task st.active_tasks,
        metrics := { st.metrics with
          completed_tasks := st.metrics.completed_tasks + 1 } }, task)
    | .error e =>
      let task := { task with error := some e }
      handleTaskFailure
        { st with active_tasks := alReplace task.id task st.active_tasks }
        task finished
  let st := { st with task_futures := alErase task.id st.task_futures }
  let st :=
    if task.status = .completed ∨ task.status = .failed then
      let st := { st with
        completed_tasks := alReplace task.id task st.completed_tasks,
        active_tasks := alErase task.id st.active_tasks }
      processDependencies st task.id
    else st
  let ac := st.active_tasks.length
  if ac > st.metrics.peak_concurrent_tasks then
    { st with metrics := { st.metrics with peak_concurrent_tasks := ac } }
  else st

/-- `get_task_status` (lines 509-515). -/
def getTaskStatus (st : PipelineState ε ρ) (task_id : String) :
    Option TaskStatus :=
  match st.active_tasks.lookup task_id with
  | some t => some t.status
  | none =>
    match st.completed_tasks.lookup task_id with
    | some t => some t.status
    | none => none

/-- `cancel_task` (lines 517-529): only a task with a recorded in-flight
future that is not yet done is affected — its future is cancelled
(asynchronously; the future is not done yet when the call returns) and
the active record is marked CANCELLED; every other task id (queued,
pending on dependencies, completed, or unknown) yields `False` with the
state untouched. -/
def cancelTask (st : PipelineState ε ρ) (task_id : String) :
    Bool × PipelineState ε ρ :=
  match st.task_futures.lookup task_id with
  | some done =>
    if done then (false, st)
    else
      let st :=
        match st.active_tasks.lookup task_id with
        | some t =>
          { st with active_tasks :=
            alReplace task_id { t with status := .cancelled } st.active_tasks }
        | none => st
      (true, st)
  | none => (false, st)

/-- Driver for the retry scenario (claim S3): repeatedly dequeue and
execute attempts of work that always raises `err`, until the queues are
drained or the fuel runs out; returns the final state and the number of
executed attempts. -/
def runFailingAttempts (err : ε) (now : Int) :
    PipelineState ε ρ → Nat → PipelineState ε ρ × Nat
  | st, 0 => (st, 0)
  | st, fuel + 1 =>
    match getNextTask st with
    | none => (st, 0)
    | some (tid, st') =>
      match st'.active_tasks.lookup tid with
      | none => (st', 0)
      | some task =>
        let st'' := executeTask st' task (.error err) now now
        let (stf, n) := runFailingAttempts err now st'' fuel
        (stf, n + 1)

/-! ## Operation sequences over the cache (for the hot-tier invariant) -/

/-- One public cache operation (`set`, `get` or `delete`), as named by the
spec's invariant "for every sequence of set/get/delete operations". -/
inductive CacheOp (α : Type) where
  | setOp (key : String) (value : α) (ttl : Option Int) (level : CacheLevel)
  | getOp (key : String) (default : α)
  | delOp (key : String)

/-- Apply one operation at a given wall-clock instant, discarding the
returned value. -/
def stepOp (cfg : CacheConfig α) (st : CacheState α) :
    CacheOp α × Int → CacheState α
  | (.setOp k v ttl lvl, now) => (IntelligentCache.set cfg st now k v ttl lvl).2
  | (.getOp k d, now) => (IntelligentCache.get cfg st now k d).2
  | (.delOp k, _) => (IntelligentCache.delete cfg st k).2

/-- Run a timed operation sequence from a state. -/
def runOps (cfg : CacheConfig α) :
    CacheState α → List (CacheOp α × Int) → CacheState α
  | st, [] => st
  | st, op :: rest => runOps cfg (stepOp cfg st op) rest

/-- Size discipline on an operation: every stored value pickles to at most
the memory budget.  (`get` and `delete` are unconstrained.) -/
def GoodOp (cfg : CacheConfig α) : CacheOp α → Prop
  | .setOp _ v _ _ => (cfg.sz v : Int) ≤ cfg.maxBytes
  | _ => True

/-- Key distinctness of an association list. -/
abbrev keysND (l : List (String × β)) : Prop :=
  (l.map Prod.fst).Nodup

/-- The state invariant maintained by the public cache operations when
every stored value fits in the budget and a default TTL is configured:
the hot tier's keys are distinct, its byte total is within the budget and
never exceeds the `stats.size_bytes` counter (the counter can only
over-approximate: the expired-entry branch of `get` deletes without
deducting), every hot entry's recorded size is its value's serialized
size, fits in the budget, and carries a TTL, and every disk blob's value
fits in the budget. -/
structure CacheInv (cfg : CacheConfig α) (st : CacheState α) : Prop where
  nd : keysND st.memory_cache
  budget : (sumBytes st.memory_cache : Int) ≤ cfg.maxBytes
  le_stats : (sumBytes st.memory_cache : Int) ≤ st.stats.size_bytes
  entries : ∀ p ∈ st.memory_cache,
    p.2.size_bytes = cfg.sz p.2.value
      ∧ (p.2.size_bytes : Int) ≤ cfg.maxBytes ∧ p.2.ttl.isSome
  disk : ∀ q ∈ st.disk_cache, (cfg.sz q.2.value : Int) ≤ cfg.maxBytes

/-! ## Claim C3 — retry then fail -/

/-- The pipeline state after submitting task `"t"` with `max_retries = 2`
and no dependencies to a fresh running pipeline at time 0. -/
def c3Submitted : PipelineState String Unit :=
  match submitTask ({} : PipelineState String Unit) "t" .normal 30 2 [] 0 with
  | .ok st => st
  | .error _ => {}

/-! ## Claim C6 — strict priority order, FIFO within a class -/

/-- A sample pipeline state with queued tasks in two classes. -/
def c6State : PipelineState String Unit :=
  { task_queues := { critical := [], high := ["h1", "h2"],
                     normal := ["n1"], low := [] } }

/-- The state left after one dequeue from `c6State`. -/
def c6Popped : PipelineState String Unit :=
  match getNextTask c6State with
  | some p => p.2
  | none => {}

/-- A sample NORMAL-priority task. -/
def c6Task : PipelineTask String Unit := { id := "q1", priority := .normal }

/-! ## Claim C4 — no cycle detection at submit -/

/-- Submitting a task that depends on its own id to a fresh running
pipeline. -/
def c4Result : Except SubmitError (PipelineState String Unit) :=
  submitTask ({} : PipelineState String Unit) "A" .normal 30 3 ["A"] 0

/-- The state produced by the self-dependent submit. -/
def c4State : PipelineState String Unit :=
  match c4Result with
  | .ok st => st
  | .error _ => {}

/-! ## Claim C5 — cancel only reaches tasks with an in-flight future -/

/-- A state holding one QUEUED task `"Q"` (in the NORMAL queue, PENDING,
with no in-flight future). -/
def c5Queued : PipelineState String Unit :=
  { task_queues := { normal := ["Q"] },
    active_tasks := [("Q", { id := "Q", priority := .normal })] }

/-- The state `cancel_task` produces when it reaches a task `t` with a
live future: the active record is marked CANCELLED, nothing else moves. -/
def cancelledState (st : PipelineState ε ρ) (id : String)
    (t : PipelineTask ε ρ) : PipelineState ε ρ :=
  { st with
    active_tasks := alReplace id { t with status := .cancelled } st.active_tasks }

/-- Witness state for the amended C5: a RUNNING task with a live future. -/
def c5Running : PipelineState String Unit :=
  { active_tasks := [("R", { id := "R", status := .running })],
    task_futures := [("R", false)] }

/-! ## Claim C2 — a FAILED dependency promotes its dependents -/

/-- A dependency task `"D"` with no retries left. -/
def c2DTask : PipelineTask String Unit :=
  { id := "D", priority := .normal, max_retries := 0 }

/-- A dependent task `"T"` pending on `"D"`. -/
def c2TTask : PipelineTask String Unit :=
  { id := "T", priority := .normal, dependencies := ["D"] }

/-- Pipeline state in which `"T"` waits on `"D"` and a worker has just
dequeued `"D"`. -/
def c2State : PipelineState String Unit :=
  { active_tasks := [("D", c2DTask), ("T", c2TTask)],
    dependency_graph := [("T", ["D"])],
    reverse_dependencies := [("D", ["T"])] }

/-- The state after `"D"`'s work raises and its retries are exhausted. -/
def c2After : PipelineState String Unit :=
  executeTask c2State c2DTask (.error "boom") 1 1

/-! ## Claim C9 — forward/reverse dependency-index consistency -/

/-- The claim's consistency predicate, over the recorded maps: every
unresolved dependency `d` of every pending task `tid` has the reverse
edge `d ↦ tid`, and every reverse edge points back to a pending task
whose unresolved set contains it. -/
def revDepConsistent (st : PipelineState ε ρ) : Bool :=
  st.dependency_graph.all (fun p =>
    p.2.all (fun d => ((st.reverse_dependencies.lookup d).getD []).contains p.1))
  && st.reverse_dependencies.all (fun q =>
    q.2.all (fun tid => ((st.dependency_graph.lookup tid).getD []).contains q.1))

/-- Submitting `"T"` with two uncompleted dependencies to a fresh
pipeline. -/
def c9Result : Except SubmitError (PipelineState String Unit) :=
  submitTask ({} : PipelineState String Unit) "T" .normal 30 3 ["A", "B"] 0

/-- The state after that submit. -/
def c9State : PipelineState String Unit :=
  match c9Result with
  | .ok st => st
  | .error _ => {}

/-! ## Claim C7 — TTL edge semantics -/

/-- Cache configuration for the C7 scenario (memory tier only). -/
def c7Cfg : CacheConfig Nat :=
  { sz := fun _ => 10, strategy := .lru,
    enable_disk_cache := false, prefetch_enabled := false }

/-- Setting key `"k"` with TTL 0 at time 0. -/
def c7SetZero : Bool × CacheState Nat :=
  IntelligentCache.set c7Cfg {} 0 "k" 7 (some 0) .memory

/-- A sample entry with the given TTL, for the C7 witness. -/
def c7Entry (t : Option Int) : CacheEntry Nat :=
  { key := "k", value := 7, created_at := 0, accessed_at := 0,
    access_count := 0, ttl := t, size_bytes := 10 }

/-- A hot tier holding a stored `none` under key `"k"`. -/
def c10Hit : CacheState (Option Nat) :=
  { memory_cache := [("k",
      { key := "k", value := none, created_at := 0, accessed_at := 0,
        access_count := 0, ttl := some 100, size_bytes := 4 })] }

/-- Cache configuration for the C10 witness. -/
def c10Cfg : CacheConfig (Option Nat) :=
  { sz := fun _ => 4, strategy := .lru,
    enable_disk_cache := false, prefetch_enabled := false }

/-- Cache configuration for the C8 scenario (memory tier only,
prefetching on). -/
def c8Cfg : CacheConfig Nat :=
  { sz := fun _ => 1, strategy := .lru,
    enable_disk_cache := false, prefetch_enabled := true }

/-- Two registered patterns: `"user:"` (a true prefix of the key, whose
producer yields nothing) registered first, then `"use"` (also matching,
whose producer yields 42). -/
def c8StateA : CacheState Nat :=
  { prefetch_callbacks := [("user:", fun _ => none), ("use", fun _ => some 42)] }

/-- One registered pattern `"er:4"` — an inner substring of `"user:42"`,
not a prefix. -/
def c8StateB : CacheState Nat :=
  { prefetch_callbacks := [("er:4", fun _ => some 9)] }

/-- One registered pattern `"se"` whose producer returns 5, for the C8
witness. -/
def c8StateW : CacheState Nat :=
  { prefetch_callbacks := [("se", fun _ => some 5)] }

/-! ## Claim C1 — hot-tier bytes vs the memory budget -/

/-- A configuration whose single value pickles to more than the whole
1 MiB budget. -/
def c1Cfg : CacheConfig Nat :=
  { max_memory_mb := 1, sz := fun _ => 2000000, strategy := .lru,
    enable_disk_cache := false, prefetch_enabled := false }

/-- Witness configuration: 1 MiB budget, identity sizing, LRU. -/
def c1WCfg : CacheConfig Nat :=
  { max_memory_mb := 1, sz := fun v => v, strategy := .lru,
    enable_disk_cache := true, prefetch_enabled := false }

/-- Witness operations: two sets that together overflow the budget (so
one eviction fires), a get, a delete, and a disk-tier set. -/
def c1WOps : List (CacheOp Nat × Int) :=
  [(.setOp "a" 400000 none .memory, 0),
   (.setOp "b" 900000 (some 10) .memory, 1),
   (.getOp "a" 0, 2),
   (.delOp "b", 3),
   (.setOp "c" 1000 (some 50) .disk, 4)]

/-! ## Theorems -/

/-! ## Association-list lemmas -/

theorem alErase_sublist (k : String) (l : List (String × β)) :
    (alErase k l).Sublist l := by
  induction l with
  | nil => simp [alErase]
  | cons p rest ih =>
    obtain ⟨k', v'⟩ := p
    by_cases h : k' = k
    · simp only [alErase, if_pos h]
      exact List.sublist_cons_self _ _
    · simp only [alErase, if_neg h]
      exact ih.cons₂ _

theorem mem_of_mem_alErase {k : String} {l : List (String × β)} {p}
    (h : p ∈ alErase k l) : p ∈ l :=
  (alErase_sublist k l).mem h

theorem mem_alReplace {k : String} {v : β} {l : List (String × β)} {p}
    (h : p ∈ alReplace k v l) : p = (k, v) ∨ p ∈ l := by
  induction l with
  | nil => simpa [alReplace] using h
  | cons q rest ih =>
    obtain ⟨k', v'⟩ := q
    by_cases hk : k' = k
    · simp only [alReplace, if_pos hk] at h
      rcases List.mem_cons.1 h with h | h
      · exact .inl h
      · exact .inr (List.mem_cons_of_mem _ h)
    · simp only [alReplace, if_neg hk] at h
      rcases List.mem_cons.1 h with h | h
      · exact .inr (by simp [h])
      · rcases ih h with h' | h'
        · exact .inl h'
        · exact .inr (List.mem_cons_of_mem _ h')

theorem lookup_alReplace_self (k : String) (v : β) (l : List (String × β)) :
    (alReplace k v l).lookup k = some v := by
  induction l with
  | nil => simp [alReplace, List.lookup_cons]
  | cons q rest ih =>
    obtain ⟨k', v'⟩ := q
    by_cases hk : k' = k
    · simp [alReplace, if_pos hk, List.lookup_cons]
    · have hk2 : k ≠ k' := fun h => hk h.symm
      simp [alReplace, if_neg hk, List.lookup_cons, beq_false_of_ne hk2, ih]

theorem lookup_alReplace_ne {k k' : String} (h : k' ≠ k) (v : β)
    (l : List (String × β)) :
    (alReplace k v l).lookup k' = l.lookup k' := by
  induction l with
  | nil => simp [alReplace, List.lookup_cons, beq_false_of_ne h]
  | cons q rest ih =>
    obtain ⟨k'', v''⟩ := q
    by_cases hk : k'' = k
    · subst hk
      simp [alReplace, List.lookup_cons, beq_false_of_ne h]
    · simp only [alReplace, if_neg hk, List.lookup_cons]
      by_cases hk' : k' = k''
      · simp [hk', beq_self_eq_true]
      · simp [beq_false_of_ne hk', ih]

theorem lookup_alErase_ne {k k' : String} (h : k' ≠ k)
    (l : List (String × β)) :
    (alErase k l).lookup k' = l.lookup k' := by
  induction l with
  | nil => simp [alErase]
  | cons q rest ih =>
    obtain ⟨k'', v''⟩ := q
    by_cases hk : k'' = k
    · subst hk
      simp [alErase, List.lookup_cons, beq_false_of_ne h]
    · simp only [alErase, if_neg hk, List.lookup_cons]
      by_cases hk' : k' = k''
      · simp [hk', beq_self_eq_true]
      · simp [beq_false_of_ne hk', ih]

theorem lookup_mem {k : String} {v : β} {l : List (String × β)}
    (h : l.lookup k = some v) : (k, v) ∈ l := by
  induction l with
  | nil => simp [List.lookup] at h
  | cons q rest ih =>
    obtain ⟨k', v'⟩ := q
    by_cases hk : k = k'
    · subst hk
      simp only [List.lookup_cons, beq_self_eq_true] at h
      simp only [Option.some.injEq] at h
      simp [h]
    · simp only [List.lookup_cons, beq_false_of_ne hk] at h
      exact List.mem_cons_of_mem _ (ih h)

theorem lookup_eq_some_of_mem {k : String} {v : β} {l : List (String × β)}
    (nd : keysND l) (h : (k, v) ∈ l) : l.lookup k = some v := by
  induction l with
  | nil => simp at h
  | cons q rest ih =>
    obtain ⟨k', v'⟩ := q
    simp only [keysND, List.map_cons, List.nodup_cons] at nd
    rcases List.mem_cons.1 h with h2 | h2
    · injection h2 with hk hv
      subst hk
      subst hv
      simp [List.lookup_cons, beq_self_eq_true]
    · have hk : k ≠ k' := by
        rintro rfl
        exact nd.1 (List.mem_map.2 ⟨(k, v), h2, rfl⟩)
      rw [List.lookup_cons]
      simp only [beq_false_of_ne hk]
      exact ih nd.2 h2

theorem lookup_isSome_iff_mem_keys {k : String} {l : List (String × β)} :
    (l.lookup k).isSome ↔ k ∈ l.map Prod.fst := by
  induction l with
  | nil => simp [List.lookup]
  | cons q rest ih =>
    obtain ⟨k', v'⟩ := q
    by_cases hk : k = k'
    · simp [List.lookup_cons, hk, beq_self_eq_true]
    · simp [List.lookup_cons, beq_false_of_ne hk, ih, hk]

theorem keys_alErase_subset (k : String) (l : List (String × β)) :
    ((alErase k l).map Prod.fst).Sublist (l.map Prod.fst) :=
  (alErase_sublist k l).map _

theorem keysND_alErase {k : String} {l : List (String × β)}
    (nd : keysND l) : keysND (alErase k l) :=
  (keys_alErase_subset k l).nodup nd

theorem not_mem_keys_alErase {k : String} {l : List (String × β)}
    (nd : keysND l) : k ∉ (alErase k l).map Prod.fst := by
  induction l with
  | nil => simp [alErase]
  | cons q rest ih =>
    obtain ⟨k', v'⟩ := q
    simp only [keysND, List.map_cons, List.nodup_cons] at nd
    by_cases hk : k' = k
    · subst hk
      simpa [alErase] using nd.1
    · simp only [alErase, if_neg hk, List.map_cons, List.mem_cons]
      rintro (h | h)
      · exact hk h.symm
      · exact ih nd.2 h

theorem keys_alReplace (k : String) (v : β) (l : List (String × β)) :
    (alReplace k v l).map Prod.fst
      = if k ∈ l.map Prod.fst then l.map Prod.fst
        else l.map Prod.fst ++ [k] := by
  induction l with
  | nil => simp [alReplace]
  | cons q rest ih =>
    obtain ⟨k', v'⟩ := q
    by_cases hk : k' = k
    · subst hk
      simp [alReplace]
    · simp only [alReplace, if_neg hk, List.map_cons, ih]
      by_cases hm : k ∈ rest.map Prod.fst <;>
        simp [hm, Ne.symm hk, List.mem_cons]

theorem keysND_alReplace {k : String} {v : β} {l : List (String × β)}
    (nd : keysND l) : keysND (alReplace k v l) := by
  unfold keysND
  rw [keys_alReplace]
  by_cases hm : k ∈ l.map Prod.fst
  · simpa [hm] using nd
  · simp only [hm, if_false]
    refine List.Nodup.append nd (List.nodup_singleton k) ?_
    intro a ha hb
    rw [List.mem_singleton] at hb
    subst hb
    exact hm ha

/-- **C3.** A task whose work raises deterministically with `max_retries = 2`
is executed exactly 3 times (the initial attempt plus 2 retries), ends in
FAILED with the work's error recorded and `retry_count = 3`; and in general
a failing attempt re-queues the task (status PENDING) exactly when the
retry count before the failure was below the maximum, else it is FAILED —
the spec's `retryCount < max : QUEUED ; else : FAILED` transition. -/
theorem claim3_retry_then_fail :
    ((runFailingAttempts "boom" 1 c3Submitted 10).2 = 3
      ∧ (runFailingAttempts "boom" 1 c3Submitted 10).1.completed_tasks.lookup "t"
          = some { id := "t", priority := .normal, timeout := 30,
                   retry_count := 3, max_retries := 2, status := .failed,
                   created_at := 0, started_at := some 1,
                   completed_at := some 1, result := none,
                   error := some "boom", dependencies := [] }
      ∧ (runFailingAttempts "boom" 1 c3Submitted 10).1.task_queues = {}
      ∧ (runFailingAttempts "boom" 1 c3Submitted 10).1.active_tasks = [])
    ∧ ∀ (ε ρ : Type) (st : PipelineState ε ρ) (task : PipelineTask ε ρ)
        (now : Int),
        ((handleTaskFailure st task now).2.status = TaskStatus.pending
            ↔ task.retry_count < task.max_retries)
          ∧ ((handleTaskFailure st task now).2.status = TaskStatus.failed
            ↔ ¬ task.retry_count < task.max_retries) := by
  constructor
  · exact ⟨by decide, by decide, by decide, by decide⟩
  · intro ε ρ st task now
    by_cases h : task.retry_count + 1 ≤ task.max_retries
    · have h' : task.retry_count < task.max_retries := by omega
      simp [handleTaskFailure, h, h']
    · have h' : ¬ task.retry_count < task.max_retries := by omega
      simp [handleTaskFailure, h, h']

/-- **C6.** `_get_next_task` always pops the front of the first non-empty
queue in the strict order CRITICAL, HIGH, NORMAL, LOW (so a lower class is
served only when every higher class is empty, and the element served is
the earliest queued of its class), and `_queue_task` appends at the back
of exactly the submitted task's class — hence within a class, dequeue
order is submission order. -/
theorem claim6_priority_fifo :
    (∀ (ε ρ : Type) (st : PipelineState ε ρ) (tid : String)
        (st' : PipelineState ε ρ),
      getNextTask st = some (tid, st') →
        (st.task_queues.critical = tid :: st'.task_queues.critical
            ∧ st'.task_queues.high = st.task_queues.high
            ∧ st'.task_queues.normal = st.task_queues.normal
            ∧ st'.task_queues.low = st.task_queues.low)
          ∨ (st.task_queues.critical = []
            ∧ st.task_queues.high = tid :: st'.task_queues.high
            ∧ st'.task_queues.critical = []
            ∧ st'.task_queues.normal = st.task_queues.normal
            ∧ st'.task_queues.low = st.task_queues.low)
          ∨ (st.task_queues.critical = [] ∧ st.task_queues.high = []
            ∧ st.task_queues.normal = tid :: st'.task_queues.normal
            ∧ st'.task_queues.critical = [] ∧ st'.task_queues.high = []
            ∧ st'.task_queues.low = st.task_queues.low)
          ∨ (st.task_queues.critical = [] ∧ st.task_queues.high = []
            ∧ st.task_queues.normal = []
            ∧ st.task_queues.low = tid :: st'.task_queues.low
            ∧ st'.task_queues.critical = [] ∧ st'.task_queues.high = []
            ∧ st'.task_queues.normal = []))
    ∧ ∀ (ε ρ : Type) (st : PipelineState ε ρ) (t : PipelineTask ε ρ),
        (queueTask st t).task_queues.ofPriority t.priority
            = st.task_queues.ofPriority t.priority ++ [t.id]
          ∧ ∀ p, p ≠ t.priority →
            (queueTask st t).task_queues.ofPriority p
              = st.task_queues.ofPriority p := by
  constructor
  · intro ε ρ st tid st' h
    cases hc : st.task_queues.critical with
    | cons c cs =>
      simp only [getNextTask, hc, Option.some.injEq, Prod.mk.injEq] at h
      obtain ⟨rfl, rfl⟩ := h
      left
      exact ⟨by simp [hc], rfl, rfl, rfl⟩
    | nil =>
      cases hh : st.task_queues.high with
      | cons c cs =>
        simp only [getNextTask, hc, hh, Option.some.injEq, Prod.mk.injEq] at h
        obtain ⟨rfl, rfl⟩ := h
        right; left
        exact ⟨rfl, by simp, by simp [hc], rfl, rfl⟩
      | nil =>
        cases hn : st.task_queues.normal with
        | cons c cs =>
          simp only [getNextTask, hc, hh, hn, Option.some.injEq,
            Prod.mk.injEq] at h
          obtain ⟨rfl, rfl⟩ := h
          right; right; left
          exact ⟨rfl, rfl, by simp, by simp [hc], by simp [hh], rfl⟩
        | nil =>
          cases hl : st.task_queues.low with
          | cons c cs =>
            simp only [getNextTask, hc, hh, hn, hl, Option.some.injEq,
              Prod.mk.injEq] at h
            obtain ⟨rfl, rfl⟩ := h
            right; right; right
            exact ⟨rfl, rfl, rfl, by simp, by simp [hc], by simp [hh],
              by simp [hn]⟩
          | nil =>
            simp only [getNextTask, hc, hh, hn, hl] at h
            exact Option.noConfusion h
  · intro ε ρ st t
    constructor
    · cases hp : t.priority <;>
        simp [queueTask, Queues.push, Queues.ofPriority, hp]
    · intro p hne
      cases hp : t.priority <;> cases p <;>
        simp_all [queueTask, Queues.push, Queues.ofPriority]

/-- Witness for C6: one dequeue from `c6State` (HIGH is the highest
non-empty class, `"h1"` its front) and one enqueue of a NORMAL task. -/
theorem claim6_priority_fifo_witness :
    ((c6State.task_queues.critical = "h1" :: c6Popped.task_queues.critical
        ∧ c6Popped.task_queues.high = c6State.task_queues.high
        ∧ c6Popped.task_queues.normal = c6State.task_queues.normal
        ∧ c6Popped.task_queues.low = c6State.task_queues.low)
      ∨ (c6State.task_queues.critical = []
        ∧ c6State.task_queues.high = "h1" :: c6Popped.task_queues.high
        ∧ c6Popped.task_queues.critical = []
        ∧ c6Popped.task_queues.normal = c6State.task_queues.normal
        ∧ c6Popped.task_queues.low = c6State.task_queues.low)
      ∨ (c6State.task_queues.critical = [] ∧ c6State.task_queues.high = []
        ∧ c6State.task_queues.normal = "h1" :: c6Popped.task_queues.normal
        ∧ c6Popped.task_queues.critical = [] ∧ c6Popped.task_queues.high = []
        ∧ c6Popped.task_queues.low = c6State.task_queues.low)
      ∨ (c6State.task_queues.critical = [] ∧ c6State.task_queues.high = []
        ∧ c6State.task_queues.normal = []
        ∧ c6State.task_queues.low = "h1" :: c6Popped.task_queues.low
        ∧ c6Popped.task_queues.critical = [] ∧ c6Popped.task_queues.high = []
        ∧ c6Popped.task_queues.normal = []))
    ∧ (queueTask c6State c6Task).task_queues.ofPriority c6Task.priority
        = c6State.task_queues.ofPriority c6Task.priority ++ [c6Task.id]
    ∧ (queueTask c6State c6Task).task_queues.ofPriority TaskPriority.low
        = c6State.task_queues.ofPriority TaskPriority.low :=
  ⟨claim6_priority_fifo.1 String Unit c6State "h1" c6Popped rfl,
    (claim6_priority_fifo.2 String Unit c6State c6Task).1,
    (claim6_priority_fifo.2 String Unit c6State c6Task).2 TaskPriority.low
      (by decide)⟩

theorem alReplace_alReplace (k : String) (v w : β) (l : List (String × β)) :
    alReplace k v (alReplace k w l) = alReplace k v l := by
  induction l with
  | nil => simp [alReplace]
  | cons q rest ih =>
    obtain ⟨k', v'⟩ := q
    by_cases hk : k' = k
    · simp [alReplace, hk]
    · simp [alReplace, hk, ih]

theorem lookup_alErase_self {k : String} {l : List (String × β)}
    (nd : keysND l) : (alErase k l).lookup k = none := by
  cases h : (alErase k l).lookup k with
  | none => rfl
  | some v =>
    have hs : ((alErase k l).lookup k).isSome := by rw [h]; rfl
    exact absurd (lookup_isSome_iff_mem_keys.1 hs) (not_mem_keys_alErase nd)

theorem Queues.ofPriority_push_self (q : Queues) (p : TaskPriority)
    (tid : String) : (q.push p tid).ofPriority p = q.ofPriority p ++ [tid] := by
  cases p <;> simp [Queues.push, Queues.ofPriority]

/-- **C4, counterexample.** A submit whose dependency set closes a cycle
(here, a task depending on its own id) is NOT rejected: `submit_task`
returns the id successfully (the only submit-time exceptions in the
source are the duplicate-id `ValueError` and the not-running
`RuntimeError`; no `CyclicDependency` exists), and the task IS recorded,
pending on itself. -/
theorem claim4_counterexample :
    c4Result = .ok c4State
      ∧ c4State.dependency_graph.lookup "A" = some ["A"]
      ∧ getTaskStatus c4State "A" = some .pending
      ∧ c4State.task_queues = {} := by
  exact ⟨by rfl, by decide, by decide, by decide⟩

/-- **C4, amended.** `submit_task` performs no cycle detection: submitting
a task that depends on its own (fresh) id succeeds on any running
pipeline, the task is recorded in PENDING state with the self-edge in the
dependency graph, and nothing is queued (so the task never reaches a run
queue by this submit). -/
theorem claim4_no_cycle_detection (ε ρ : Type) (st : PipelineState ε ρ)
    (id : String) (p : TaskPriority) (tmo : Int) (mr : Nat) (now : Int)
    (hrun : st.is_running = true)
    (ha : st.active_tasks.lookup id = none)
    (hc : st.completed_tasks.lookup id = none) :
    submitTask st id p tmo mr [id] now
        = .ok { st with
            reverse_dependencies := alAppendEntry id id st.reverse_dependencies,
            dependency_graph := alReplace id [id] st.dependency_graph,
            active_tasks := alReplace id
              { id := id, priority := p, timeout := tmo, max_retries := mr,
                created_at := now, dependencies := [id] } st.active_tasks }
      ∧ ∀ st', submitTask st id p tmo mr [id] now = .ok st' →
          st'.task_queues = st.task_queues
            ∧ st'.dependency_graph.lookup id = some [id]
            ∧ getTaskStatus st' id = some .pending := by
  have hsub : submitTask st id p tmo mr [id] now
      = .ok { st with
          reverse_dependencies := alAppendEntry id id st.reverse_dependencies,
          dependency_graph := alReplace id [id] st.dependency_graph,
          active_tasks := alReplace id
            { id := id, priority := p, timeout := tmo, max_retries := mr,
              created_at := now, dependencies := [id] } st.active_tasks } := by
    unfold submitTask firstUncompletedDep
    simp [hrun, ha, hc, List.find?]
  refine ⟨hsub, ?_⟩
  intro st' h
  rw [hsub] at h
  injection h with h
  subst h
  refine ⟨rfl, by simp [lookup_alReplace_self], ?_⟩
  simp [getTaskStatus, lookup_alReplace_self]

/-- Witness for the amended C4 at a concrete fresh pipeline. -/
theorem claim4_no_cycle_detection_witness :
    submitTask ({} : PipelineState String Unit) "w" .high 30 3 ["w"] 0
        = .ok { reverse_dependencies := alAppendEntry "w" "w" [],
                dependency_graph := alReplace "w" ["w"] [],
                active_tasks := alReplace "w"
                  { id := "w", priority := .high, timeout := 30,
                    max_retries := 3, created_at := 0,
                    dependencies := ["w"] } [] } :=
  (claim4_no_cycle_detection String Unit {} "w" .high 30 3 0 rfl rfl rfl).1

/-- **C5, counterexample.** Cancelling a QUEUED task is a no-op returning
`False`: the task keeps its PENDING status and stays in its queue (so it
will still run), contradicting "cancelling it by id marks it CANCELLED
and removes it from its queue". -/
theorem claim5_counterexample :
    cancelTask c5Queued "Q" = (false, c5Queued)
      ∧ getTaskStatus c5Queued "Q" = some .pending
      ∧ c5Queued.task_queues.normal = ["Q"] := by
  exact ⟨by decide, by decide, by decide⟩

/-- **C5, amended.** `cancel_task` affects only a task with a recorded,
not-yet-done in-flight future (a RUNNING task): it marks the active
record CANCELLED and returns `True` (queues untouched); for any other id
— queued, pending on dependencies, already completed, or unknown — it
returns `False` and leaves the state unchanged.  A second cancel of a
still-running task returns `True` again but leaves the state exactly as
after the first, so repeated cancels are idempotent on the state. -/
theorem claim5_cancel_semantics (ε ρ : Type) (st : PipelineState ε ρ)
    (id : String) :
    (st.task_futures.lookup id = none → cancelTask st id = (false, st))
    ∧ (st.task_futures.lookup id = some true → cancelTask st id = (false, st))
    ∧ (∀ t, st.task_futures.lookup id = some false →
        st.active_tasks.lookup id = some t →
        cancelTask st id = (true, cancelledState st id t)
          ∧ getTaskStatus (cancelTask st id).2 id = some .cancelled
          ∧ (cancelTask st id).2.task_queues = st.task_queues
          ∧ cancelTask (cancelTask st id).2 id = (true, (cancelTask st id).2)) := by
  refine ⟨?_, ?_, ?_⟩
  · intro h
    simp [cancelTask, h]
  · intro h
    simp [cancelTask, h]
  · intro t hf ha
    have h1 : cancelTask st id = (true, cancelledState st id t) := by
      simp [cancelTask, hf, ha, cancelledState]
    refine ⟨h1, ?_, ?_, ?_⟩
    · rw [h1]
      simp [cancelledState, getTaskStatus, lookup_alReplace_self]
    · rw [h1]
      simp [cancelledState]
    · rw [h1]
      simp only [cancelledState, cancelTask, hf, if_false, Bool.false_eq_true,
        lookup_alReplace_self]
      rw [alReplace_alReplace]

/-- Witness theorem for C5 at `c5Running`. -/
theorem claim5_cancel_semantics_witness :
    cancelTask c5Running "R"
        = (true, cancelledState c5Running "R" { id := "R", status := .running })
      ∧ getTaskStatus (cancelTask c5Running "R").2 "R" = some .cancelled
      ∧ cancelTask c5Running "nope" = (false, c5Running) := by
  have h := (claim5_cancel_semantics String Unit c5Running "R").2.2
    { id := "R", status := .running } rfl rfl
  exact ⟨h.1, h.2.1, (claim5_cancel_semantics String Unit c5Running "nope").1 rfl⟩

/-- **C2, counterexample.** When dependency `"D"` reaches FAILED, its
dependent `"T"` is NOT failed with `DependencyFailed`: `"T"` is promoted
into the NORMAL run queue, still PENDING, with its dependency entry
cleared — `_process_dependencies` treats a FAILED producer exactly like a
COMPLETED one, so `"T"`'s work will be executed. -/
theorem claim2_counterexample :
    getTaskStatus c2After "D" = some .failed
      ∧ c2After.task_queues.normal = ["T"]
      ∧ getTaskStatus c2After "T" = some .pending
      ∧ c2After.dependency_graph = [] := by
  exact ⟨by decide, by decide, by decide, by decide⟩

/-- **C2, amended.** When a dependency `d` fails terminally (work raises
with retries exhausted), the pipeline processes dependents exactly as on
success: the failed edge is removed, and a dependent `t` whose unresolved
set empties and is still PENDING is appended to the run queue of its
priority class, keeping status PENDING — no `DependencyFailed` failure is
applied (no such error exists in the source).  And a task CANCELLED via
`cancel_task` triggers no dependent processing at all: `cancel_task`
leaves the dependency graph, the queues and the completed map
untouched. -/
theorem claim2_failed_dep_promotes (ε ρ : Type) (st : PipelineState ε ρ)
    (d t : PipelineTask ε ρ) (e : ε) (now : Int)
    (hne : t.id ≠ d.id)
    (hnd : keysND st.active_tasks)
    (hterm : d.max_retries ≤ d.retry_count)
    (hrev : st.reverse_dependencies.lookup d.id = some [t.id])
    (hgraph : st.dependency_graph.lookup t.id = some [d.id])
    (hactive : st.active_tasks.lookup t.id = some t)
    (hstatus : t.status = .pending) :
    (getTaskStatus (executeTask st d (.error e) now now) d.id = some .failed
      ∧ (executeTask st d (.error e) now now).task_queues.ofPriority t.priority
          = st.task_queues.ofPriority t.priority ++ [t.id]
      ∧ getTaskStatus (executeTask st d (.error e) now now) t.id = some .pending
      ∧ (executeTask st d (.error e) now now).dependency_graph
          = alErase t.id st.dependency_graph)
    ∧ ∀ (st2 : PipelineState ε ρ) (id2 : String),
        (cancelTask st2 id2).2.dependency_graph = st2.dependency_graph
          ∧ (cancelTask st2 id2).2.task_queues = st2.task_queues
          ∧ (cancelTask st2 id2).2.completed_tasks = st2.completed_tasks := by
  have hne' : d.id ≠ t.id := fun h => hne h.symm
  have hterm' : ¬ (d.retry_count + 1 ≤ d.max_retries) := by omega
  constructor
  · simp only [executeTask, handleTaskFailure, processDependencies, procDeps,
      queueTask, getTaskStatus, hterm', if_false, hrev, hgraph, hstatus,
      hactive, lookup_alReplace_ne hne, lookup_alErase_ne hne,
      lookup_alReplace_ne hne', List.erase_cons_head, List.isEmpty_nil,
      or_true, if_true, ite_self,
      apply_ite PipelineState.task_queues,
      apply_ite PipelineState.active_tasks,
      apply_ite PipelineState.completed_tasks,
      apply_ite PipelineState.dependency_graph,
      apply_ite (List.lookup d.id), apply_ite (List.lookup t.id),
      Queues.ofPriority_push_self, lookup_alReplace_self,
      lookup_alErase_self (keysND_alReplace (keysND_alReplace
        (keysND_alReplace hnd)))]
    exact ⟨trivial, trivial, trivial, trivial⟩
  · intro st2 id2
    cases h : st2.task_futures.lookup id2 with
    | none => simp [cancelTask, h]
    | some done =>
      cases done
      · cases h2 : st2.active_tasks.lookup id2 with
        | none => simp [cancelTask, h, h2]
        | some t2 => simp [cancelTask, h, h2]
      · simp [cancelTask, h]

/-- Witness for the amended C2 at the concrete two-task state. -/
theorem claim2_failed_dep_promotes_witness :
    (getTaskStatus (executeTask c2State c2DTask (.error "boom") 1 1) "D"
          = some .failed
      ∧ (executeTask c2State c2DTask
            (.error "boom") 1 1).task_queues.ofPriority c2TTask.priority
          = c2State.task_queues.ofPriority c2TTask.priority ++ ["T"]
      ∧ getTaskStatus (executeTask c2State c2DTask (.error "boom") 1 1) "T"
          = some .pending
      ∧ (executeTask c2State c2DTask (.error "boom") 1 1).dependency_graph
          = alErase "T" c2State.dependency_graph)
    ∧ ∀ (st2 : PipelineState String Unit) (id2 : String),
        (cancelTask st2 id2).2.dependency_graph = st2.dependency_graph
          ∧ (cancelTask st2 id2).2.task_queues = st2.task_queues
          ∧ (cancelTask st2 id2).2.completed_tasks = st2.completed_tasks :=
  claim2_failed_dep_promotes String Unit c2State c2DTask c2TTask "boom" 1
    (by decide) (by decide) (by decide) (by decide) (by decide) (by decide)
    (by decide)

/-- **C9, counterexample.** One submit of a task with two unresolved
dependencies already breaks the claimed consistency: the forward map
records the full set `["A", "B"]` but the reverse index gains an edge
only for `"A"` — the `for` loop of `submit_task` returns at the first
uncompleted dependency — so `"B"`'s reverse entry does not contain `"T"`
and the maps disagree. -/
theorem claim9_counterexample :
    c9Result = .ok c9State
      ∧ c9State.dependency_graph.lookup "T" = some ["A", "B"]
      ∧ c9State.reverse_dependencies.lookup "A" = some ["T"]
      ∧ c9State.reverse_dependencies.lookup "B" = none
      ∧ revDepConsistent c9State = false := by
  exact ⟨by rfl, by decide, by decide, by decide, by decide⟩

theorem contains_of_mem {a : String} {l : List String} (h : a ∈ l) :
    l.contains a = true := List.elem_iff.2 h

theorem mem_of_contains {a : String} {l : List String}
    (h : l.contains a = true) : a ∈ l := List.elem_iff.1 h

/-- **C9, amended.** At submit time only the FIRST not-yet-completed
dependency receives a reverse edge, while the forward map records the
full dependency list.  Hence: (i) a submit whose dependency list is a
single uncompleted id preserves forward/reverse consistency, but (ii) a
submit with two uncompleted dependencies always breaks it — the second
dependency's reverse entry never learns of the new task. -/
theorem claim9_rev_dep_semantics :
    (∀ (ε ρ : Type) (st : PipelineState ε ρ) (id dp : String)
        (p : TaskPriority) (tmo : Int) (mr : Nat) (now : Int),
      revDepConsistent st = true →
      st.is_running = true →
      st.active_tasks.lookup id = none →
      st.completed_tasks.lookup id = none →
      st.dependency_graph.lookup id = none →
      st.completed_tasks.lookup dp = none →
      ∀ st', submitTask st id p tmo mr [dp] now = .ok st' →
        revDepConsistent st' = true)
    ∧ (∀ (ε ρ : Type) (st : PipelineState ε ρ) (id a b : String)
        (p : TaskPriority) (tmo : Int) (mr : Nat) (now : Int),
      st.is_running = true →
      st.active_tasks.lookup id = none →
      st.completed_tasks.lookup id = none →
      st.completed_tasks.lookup a = none →
      a ≠ b →
      ((st.reverse_dependencies.lookup b).getD []).contains id = false →
      ∀ st', submitTask st id p tmo mr [a, b] now = .ok st' →
        revDepConsistent st' = false) := by
  constructor
  · intro ε ρ st id dp p tmo mr now hcons hrun ha hcId hgId hcDp st' h
    have hsub : submitTask st id p tmo mr [dp] now
        = .ok { st with
            reverse_dependencies := alAppendEntry dp id st.reverse_dependencies,
            dependency_graph := alReplace id [dp] st.dependency_graph,
            active_tasks := alReplace id
              { id := id, priority := p, timeout := tmo, max_retries := mr,
                created_at := now, dependencies := [dp] } st.active_tasks } := by
      unfold submitTask firstUncompletedDep
      simp [hrun, ha, hcId, hcDp, List.find?]
    rw [hsub] at h
    injection h with h
    subst h
    rw [revDepConsistent, Bool.and_eq_true] at hcons
    obtain ⟨h1, h2⟩ := hcons
    rw [List.all_eq_true] at h1
    rw [List.all_eq_true] at h2
    have hold : ∀ tid ∈ (st.reverse_dependencies.lookup dp).getD [],
        ((st.dependency_graph.lookup tid).getD []).contains dp = true := by
      cases hR : st.reverse_dependencies.lookup dp with
      | none => simp
      | some olds =>
        have := h2 (dp, olds) (lookup_mem hR)
        rw [List.all_eq_true] at this
        simpa using this
    have hnotid : ∀ (l : List String) (d : String),
        ((st.dependency_graph.lookup id).getD []).contains d = true → False := by
      intro l d hcont
      rw [hgId] at hcont
      simp [List.contains] at hcont
    rw [revDepConsistent, Bool.and_eq_true]
    constructor
    · rw [List.all_eq_true]
      intro pr hpr
      rcases mem_alReplace hpr with hnew | hmem
      · subst hnew
        rw [List.all_eq_true]
        intro d hd
        rw [List.mem_singleton] at hd
        subst hd
        simp only [alAppendEntry, lookup_alReplace_self, Option.getD_some]
        exact contains_of_mem (List.mem_append_right _ (List.mem_singleton_self _))
      · have horig := h1 pr hmem
        rw [List.all_eq_true] at horig
        rw [List.all_eq_true]
        intro d hd
        have hod := horig d hd
        by_cases hdp : d = dp
        · subst hdp
          simp only [alAppendEntry, lookup_alReplace_self, Option.getD_some]
          exact contains_of_mem
            (List.mem_append_left _ (mem_of_contains hod))
        · have hne : d ≠ dp := hdp
          simp only [alAppendEntry, lookup_alReplace_ne hne]
          exact hod
    · rw [List.all_eq_true]
      intro q hq
      simp only [alAppendEntry] at hq
      rcases mem_alReplace hq with hnew | hmem
      · subst hnew
        rw [List.all_eq_true]
        intro tid htid
        rcases List.mem_append.1 htid with hin | hin
        · have hc := hold tid hin
          have htne : tid ≠ id := by
            rintro rfl
            exact hnotid [] dp hc
          rw [lookup_alReplace_ne htne]
          exact hc
        · rw [List.mem_singleton] at hin
          subst hin
          rw [lookup_alReplace_self]
          exact contains_of_mem (List.mem_singleton_self _)
      · have horig := h2 q hmem
        rw [List.all_eq_true] at horig
        rw [List.all_eq_true]
        intro tid htid
        have hoq := horig tid htid
        have htne : tid ≠ id := by
          rintro rfl
          exact hnotid [] q.1 hoq
        rw [lookup_alReplace_ne htne]
        exact hoq
  · intro ε ρ st id a b p tmo mr now hrun ha hcId hcA hab hbcont st' h
    have hsub : submitTask st id p tmo mr [a, b] now
        = .ok { st with
            reverse_dependencies := alAppendEntry a id st.reverse_dependencies,
            dependency_graph := alReplace id [a, b] st.dependency_graph,
            active_tasks := alReplace id
              { id := id, priority := p, timeout := tmo, max_retries := mr,
                created_at := now, dependencies := [a, b] } st.active_tasks } := by
      unfold submitTask firstUncompletedDep
      simp [hrun, ha, hcId, hcA, List.find?]
    rw [hsub] at h
    injection h with h
    subst h
    apply Bool.eq_false_iff.2
    intro hcons
    rw [revDepConsistent, Bool.and_eq_true] at hcons
    obtain ⟨h1, _⟩ := hcons
    rw [List.all_eq_true] at h1
    have hmem : ((id, [a, b]) : String × List String)
        ∈ alReplace id [a, b] st.dependency_graph :=
      lookup_mem (lookup_alReplace_self id [a, b] st.dependency_graph)
    have := h1 (id, [a, b]) hmem
    rw [List.all_eq_true] at this
    have hb := this b (by simp)
    have hbne : b ≠ a := fun hh => hab hh.symm
    simp only [alAppendEntry, lookup_alReplace_ne hbne] at hb
    rw [hbcont] at hb
    exact Bool.noConfusion hb

/-- Witness for the amended C9: a single-dependency submit on the fresh
pipeline keeps the maps consistent. -/
theorem claim9_rev_dep_semantics_witness :
    revDepConsistent ({} : PipelineState String Unit) = true
      ∧ ∀ st', submitTask ({} : PipelineState String Unit)
            "T" .normal 30 3 ["A"] 0 = .ok st' →
          revDepConsistent st' = true :=
  ⟨by decide,
    claim9_rev_dep_semantics.1 String Unit {} "T" "A" .normal 30 3 0
      (by decide) rfl rfl rfl rfl rfl⟩

/-- After the store stage of `_set_memory`, the key maps to the freshly
built entry. -/
theorem setMemoryStore_lookup_self (cfg : CacheConfig α) (st : CacheState α)
    (now : Int) (key : String) (v : α) (ttl : Option Int) (s : Nat) :
    (setMemoryStore cfg st now key v ttl s).2.memory_cache.lookup key
      = some { key := key, value := v, created_at := now, accessed_at := now,
               access_count := 0, ttl := ttl, size_bytes := s } := by
  unfold setMemoryStore
  cases h : st.memory_cache.lookup key <;>
    simp [h, recordAccessPattern, lookup_alReplace_self]

/-- After `_set_memory`, the key maps to the freshly built entry. -/
theorem setMemory_lookup_self (cfg : CacheConfig α) (st : CacheState α)
    (now : Int) (key : String) (v : α) (ttl : Option Int) :
    (setMemory cfg st now key v ttl).2.memory_cache.lookup key
      = some { key := key, value := v, created_at := now, accessed_at := now,
               access_count := 0, ttl := ttl, size_bytes := cfg.sz v } := by
  unfold setMemory
  exact setMemoryStore_lookup_self ..

/-- **C7, counterexample.** A TTL of 0 does NOT mean "no expiry": the
entry written with `ttl = 0` at time 0 is already expired at time 1, so
the later `get` misses (returns the default 0, not the stored 7) and
deletes the entry; and a negative TTL is NOT rejected — `set` returns
`True` for `ttl = -3`. -/
theorem claim7_counterexample :
    c7SetZero.1 = true
      ∧ (IntelligentCache.get c7Cfg c7SetZero.2 1 "k" 0).1 = 0
      ∧ (IntelligentCache.get c7Cfg c7SetZero.2 1 "k" 0).2.memory_cache = []
      ∧ (IntelligentCache.set c7Cfg {} 0 "neg" 5 (some (-3)) .memory).1 = true := by
  exact ⟨by decide, by decide, by decide, by decide⟩

/-- **C7, amended.** `CacheEntry.is_expired` treats TTL 0 as "expired as
soon as any positive time has elapsed" (`now - created > 0`), not as "no
expiry"; a negative TTL is accepted by `set` (which returns `True`
unconditionally on the memory path) and such an entry is expired at every
time from its creation on; a `set` with no TTL argument stores the
configured `default_ttl` (3600 by default) rather than "no expiry"; only
an entry whose stored `ttl` field is `None` never expires by time. -/
theorem claim7_ttl_semantics :
    (∀ (α : Type) (e : CacheEntry α) (now : Int), e.ttl = some 0 →
        (e.is_expired now = true ↔ e.created_at < now))
    ∧ (∀ (α : Type) (cfg : CacheConfig α) (st : CacheState α) (now : Int)
        (key : String) (v : α) (t : Int), t < 0 →
        (IntelligentCache.set cfg st now key v (some t) .memory).1 = true)
    ∧ (∀ (α : Type) (e : CacheEntry α) (now t : Int), e.ttl = some t →
        t < 0 → e.created_at ≤ now → e.is_expired now = true)
    ∧ (∀ (α : Type) (cfg : CacheConfig α) (st : CacheState α) (now : Int)
        (key : String) (v : α),
        ((IntelligentCache.set cfg st now key v none
            .memory).2.memory_cache.lookup key).map CacheEntry.ttl
          = some cfg.default_ttl)
    ∧ (∀ (α : Type) (e : CacheEntry α) (now : Int), e.ttl = none →
        e.is_expired now = false) := by
  refine ⟨?_, ?_, ?_, ?_, ?_⟩
  · intro α e now h
    simp [CacheEntry.is_expired, h]
  · intro α cfg st now key v t _
    simp [IntelligentCache.set, setMemory, setMemoryStore]
  · intro α e now t h hneg hle
    simp [CacheEntry.is_expired, h]
    omega
  · intro α cfg st now key v
    simp [IntelligentCache.set, setMemory_lookup_self]
  · intro α e now h
    simp [CacheEntry.is_expired, h]

/-- Witness for the amended C7 at concrete inputs. -/
theorem claim7_ttl_semantics_witness :
    ((c7Entry (some 0)).is_expired 1 = true ↔ (0 : Int) < 1)
      ∧ (IntelligentCache.set c7Cfg {} 0 "neg" 5 (some (-3)) .memory).1 = true
      ∧ (c7Entry (some (-3))).is_expired 0 = true
      ∧ ((IntelligentCache.set c7Cfg {} 0 "d" 7 none
            .memory).2.memory_cache.lookup "d").map CacheEntry.ttl
          = some c7Cfg.default_ttl
      ∧ (c7Entry none).is_expired 1000000 = false :=
  ⟨claim7_ttl_semantics.1 Nat _ 1 rfl,
    claim7_ttl_semantics.2.1 Nat c7Cfg {} 0 "neg" 5 (-3) (by decide),
    claim7_ttl_semantics.2.2.1 Nat _ 0 (-3) rfl (by decide) (by decide),
    claim7_ttl_semantics.2.2.2.1 Nat c7Cfg {} 0 "d" 7,
    claim7_ttl_semantics.2.2.2.2 Nat _ 1000000 rfl⟩

/-! ## Claim C10 — a stored value equal to the default is indistinguishable
from a miss by the return value -/

/-- **C10.** On an unexpired hot-tier hit, `get` returns the stored value
— so when that value equals the caller-supplied default (e.g. a stored
`None` with the default left as `None`), the caller receives exactly the
default, just as on a miss; the two cases differ only in the hit/miss
counters (`hits+1` on the hit, `misses+1` on the miss). -/
theorem claim10_default_indistinguishable :
    (∀ (α : Type) (cfg : CacheConfig α) (st : CacheState α) (now : Int)
        (key : String) (default : α) (e : CacheEntry α),
      st.memory_cache.lookup key = some e →
      e.is_expired now = false →
      e.value = default →
        (IntelligentCache.get cfg st now key default).1 = default
          ∧ (IntelligentCache.get cfg st now key default).2.stats.hits
              = st.stats.hits + 1
          ∧ (IntelligentCache.get cfg st now key default).2.stats.misses
              = st.stats.misses)
    ∧ (∀ (α : Type) (cfg : CacheConfig α) (st : CacheState α) (now : Int)
        (key : String) (default : α),
      st.memory_cache.lookup key = none →
      cfg.enable_disk_cache = false →
        (IntelligentCache.get cfg st now key default).1 = default
          ∧ (IntelligentCache.get cfg st now key default).2.stats.misses
              = st.stats.misses + 1
          ∧ (IntelligentCache.get cfg st now key default).2.stats.hits
              = st.stats.hits) := by
  constructor
  · intro α cfg st now key default e hlook hexp hval
    refine ⟨?_, ?_, ?_⟩ <;>
      simp [IntelligentCache.get, hlook, hexp, hval, CacheEntry.touch,
        recordAccessPattern, updateHitRate, apply_ite CacheStats.hits,
        apply_ite CacheStats.misses, ite_self]
  · intro α cfg st now key default hlook hdisk
    refine ⟨?_, ?_, ?_⟩ <;>
      simp [IntelligentCache.get, hlook, hdisk, getMissTail, schedulePrefetch,
        updateHitRate, apply_ite CacheStats.hits, apply_ite CacheStats.misses,
        apply_ite CacheState.stats, ite_self]

/-- Witness for C10: a stored `None` hit with default `None`, and a miss
with default `None`, return the same value; only the counters move. -/
theorem claim10_default_indistinguishable_witness :
    ((IntelligentCache.get c10Cfg c10Hit 1 "k" none).1 = none
      ∧ (IntelligentCache.get c10Cfg c10Hit 1 "k" none).2.stats.hits
          = c10Hit.stats.hits + 1
      ∧ (IntelligentCache.get c10Cfg c10Hit 1 "k" none).2.stats.misses
          = c10Hit.stats.misses)
    ∧ ((IntelligentCache.get c10Cfg {} 1 "k" none).1 = none
      ∧ (IntelligentCache.get c10Cfg ({} : CacheState (Option Nat)) 1 "k"
            none).2.stats.misses = ({} : CacheState (Option Nat)).stats.misses + 1
      ∧ (IntelligentCache.get c10Cfg ({} : CacheState (Option Nat)) 1 "k"
            none).2.stats.hits = ({} : CacheState (Option Nat)).stats.hits) :=
  ⟨claim10_default_indistinguishable.1 (Option Nat) c10Cfg c10Hit 1 "k" none
      _ rfl (by decide) rfl,
    claim10_default_indistinguishable.2 (Option Nat) c10Cfg {} 1 "k" none
      rfl rfl⟩

/-! ## Claim C8 — prefetch pattern matching and producer selection -/

/-- `charsSubstr` decides substring containment. -/
theorem charsSubstr_iff (pat l : List Char) :
    charsSubstr pat l = true ↔ pat <:+: l := by
  induction l with
  | nil =>
    simp [charsSubstr, List.infix_nil, List.isEmpty_iff]
  | cons c rest ih =>
    simp [charsSubstr, List.infix_cons_iff, List.isPrefixOf_iff_prefix, ih]

/-- **C8, counterexample.**  (a) The producers are NOT tried in order
until one returns a value: in `c8StateA` the first matching producer
returns `None` and the worker `break`s, so the second registered matching
producer (which would return 42) is never invoked and nothing is
inserted.  (b) Matching is NOT by string prefix: the pattern `"er:4"` is
not a prefix of `"user:42"` (Python's `pattern in key` is substring
containment), yet its producer fires and its value 9 is inserted under
the key. -/
theorem claim8_counterexample :
    (prefetchStep c8Cfg c8StateA 0 "user:42").memory_cache = []
      ∧ List.isPrefixOf "er:4".toList "user:42".toList = false
      ∧ ((prefetchStep c8Cfg c8StateB 0
            "user:42").memory_cache.lookup "user:42").map CacheEntry.value
          = some 9 := by
  exact ⟨by decide, by decide, by decide⟩

/-- **C8, amended.** For every prefetched key, the registered patterns
are matched by SUBSTRING containment (Python's `pattern in key`), and
only the FIRST matching registration is consulted: if its producer
returns a value the value is inserted under the key via `set` (memory
tier, default TTL); if it returns `None` — or no pattern matches — the
cache is left unchanged, later matching producers never being invoked. -/
theorem claim8_prefetch_semantics (α : Type) (cfg : CacheConfig α)
    (st : CacheState α) (now : Int) (key : String) :
    (∀ pat, patternMatches pat key = true ↔ pat.toList <:+: key.toList)
    ∧ (st.prefetch_callbacks.find? (fun p => patternMatches p.1 key) = none →
        prefetchStep cfg st now key = st)
    ∧ (∀ pat cb,
        st.prefetch_callbacks.find? (fun p => patternMatches p.1 key)
            = some (pat, cb) →
        patternMatches pat key = true
          ∧ (cb key = none → prefetchStep cfg st now key = st)
          ∧ ∀ v, cb key = some v →
              prefetchStep cfg st now key
                = (IntelligentCache.set cfg st now key v none .memory).2) := by
  refine ⟨?_, ?_, ?_⟩
  · intro pat
    exact charsSubstr_iff pat.toList key.toList
  · intro h
    simp [prefetchStep, h]
  · intro pat cb h
    refine ⟨?_, ?_, ?_⟩
    · have := List.find?_some h
      simpa using this
    · intro hnone
      simp [prefetchStep, h, hnone]
    · intro v hv
      simp [prefetchStep, h, hv]

/-- Witness for the amended C8 at `c8StateW` and key `"user:42"`. -/
theorem claim8_prefetch_semantics_witness :
    (patternMatches "se" "user:42" = true ↔ "se".toList <:+: "user:42".toList)
      ∧ (patternMatches "se" "user:42" = true
        ∧ ((fun _ => some 5) : String → Option Nat) "user:42" = none →
            prefetchStep c8Cfg c8StateW 0 "user:42" = c8StateW)
      ∧ prefetchStep c8Cfg c8StateW 0 "user:42"
          = (IntelligentCache.set c8Cfg c8StateW 0 "user:42" 5 none .memory).2 := by
  have h := claim8_prefetch_semantics Nat c8Cfg c8StateW 0 "user:42"
  have h3 := h.2.2 "se" (fun _ => some 5) rfl
  exact ⟨h.1 "se", fun hc => h3.2.1 hc.2, h3.2.2 5 rfl⟩

/-! ## Hot-tier byte accounting lemmas (towards claim C1) -/

theorem mem_alErase_of_ne {k k' : String} {e' : β} {l : List (String × β)}
    (hne : k' ≠ k) (h : (k', e') ∈ l) : (k', e') ∈ alErase k l := by
  induction l with
  | nil => simp at h
  | cons q rest ih =>
    obtain ⟨k'', v''⟩ := q
    by_cases hk : k'' = k
    · simp only [alErase, if_pos hk]
      rcases List.mem_cons.1 h with h2 | h2
      · injection h2 with h3 _
        exact absurd (hk ▸ h3) hne
      · exact h2
    · simp only [alErase, if_neg hk]
      rcases List.mem_cons.1 h with h2 | h2
      · exact h2 ▸ List.mem_cons_self _ _
      · exact List.mem_cons_of_mem _ (ih h2)

theorem sumBytes_cons (p : String × CacheEntry α)
    (l : List (String × CacheEntry α)) :
    sumBytes (p :: l) = p.2.size_bytes + sumBytes l := by
  simp [sumBytes]

theorem sumBytes_append (l₁ l₂ : List (String × CacheEntry α)) :
    sumBytes (l₁ ++ l₂) = sumBytes l₁ + sumBytes l₂ := by
  simp [sumBytes]

theorem sumBytes_alErase_add {k : String} {e : CacheEntry α}
    {l : List (String × CacheEntry α)} (nd : keysND l) (h : (k, e) ∈ l) :
    sumBytes (alErase k l) + e.size_bytes = sumBytes l := by
  induction l with
  | nil => simp at h
  | cons q rest ih =>
    obtain ⟨k', v'⟩ := q
    simp only [keysND, List.map_cons, List.nodup_cons] at nd
    by_cases hk : k' = k
    · subst hk
      rcases List.mem_cons.1 h with h2 | h2
      · injection h2 with _ h3
        subst h3
        simp [alErase, sumBytes_cons, Nat.add_comm]
      · exact absurd (List.mem_map.2 ⟨(k', e), h2, rfl⟩) nd.1
    · rcases List.mem_cons.1 h with h2 | h2
      · injection h2 with h3 _
        exact absurd h3.symm hk
      · simp only [alErase, if_neg hk, sumBytes_cons]
        rw [Nat.add_assoc, ih nd.2 h2]

theorem sumBytes_alReplace_of_lookup_some {k : String} {v old : CacheEntry α}
    {l : List (String × CacheEntry α)} (nd : keysND l)
    (h : l.lookup k = some old) :
    sumBytes (alReplace k v l) + old.size_bytes = sumBytes l + v.size_bytes := by
  induction l with
  | nil => simp [List.lookup] at h
  | cons q rest ih =>
    obtain ⟨k', v'⟩ := q
    simp only [keysND, List.map_cons, List.nodup_cons] at nd
    by_cases hk : k' = k
    · subst hk
      rw [List.lookup_cons] at h
      simp only [beq_self_eq_true] at h
      injection h with h
      subst h
      simp [alReplace, sumBytes_cons]
      omega
    · have hk2 : k ≠ k' := fun hh => hk hh.symm
      rw [List.lookup_cons] at h
      simp only [beq_false_of_ne hk2] at h
      simp only [alReplace, if_neg hk, sumBytes_cons]
      have := ih nd.2 h
      omega

theorem sumBytes_alReplace_of_lookup_none {k : String} {v : CacheEntry α}
    {l : List (String × CacheEntry α)} (h : l.lookup k = none) :
    sumBytes (alReplace k v l) = sumBytes l + v.size_bytes := by
  induction l with
  | nil => simp [alReplace, sumBytes, Nat.add_comm]
  | cons q rest ih =>
    obtain ⟨k', v'⟩ := q
    by_cases hk : k' = k
    · subst hk
      rw [List.lookup_cons] at h
      simp at h
    · have hk2 : k ≠ k' := fun hh => hk hh.symm
      rw [List.lookup_cons] at h
      simp only [beq_false_of_ne hk2] at h
      simp only [alReplace, if_neg hk, sumBytes_cons]
      have := ih h
      omega

theorem setDisk_memory_cache (cfg : CacheConfig α) (st : CacheState α)
    (now : Int) (k : String) (v : α) (ttl : Option Int) :
    (setDisk cfg st now k v ttl).2.memory_cache = st.memory_cache := by
  unfold setDisk
  split <;> rfl

theorem setDisk_stats (cfg : CacheConfig α) (st : CacheState α)
    (now : Int) (k : String) (v : α) (ttl : Option Int) :
    (setDisk cfg st now k v ttl).2.stats = st.stats := by
  unfold setDisk
  split <;> rfl

theorem setDisk_disk_sub (cfg : CacheConfig α) (st : CacheState α)
    (now : Int) (k : String) (v : α) (ttl : Option Int) :
    ∀ q ∈ (setDisk cfg st now k v ttl).2.disk_cache,
      q ∈ st.disk_cache ∨ q = (k, ⟨v, now, ttl⟩) := by
  unfold setDisk
  split
  · intro q hq
    simp only at hq
    rcases mem_alReplace hq with h | h
    · exact .inr h
    · exact .inl h
  · intro q hq
    exact .inl hq

theorem evictOne_memory_cache (cfg : CacheConfig α) (now : Int)
    (st : CacheState α) (k : String) (e : CacheEntry α) (save : Bool) :
    (evictOne cfg now st k e save).memory_cache = alErase k st.memory_cache := by
  unfold evictOne
  cases save <;> simp [setDisk_memory_cache]

theorem evictOne_stats_size (cfg : CacheConfig α) (now : Int)
    (st : CacheState α) (k : String) (e : CacheEntry α) (save : Bool) :
    (evictOne cfg now st k e save).stats.size_bytes
      = st.stats.size_bytes - (e.size_bytes : Int) := by
  unfold evictOne
  cases save <;> simp [setDisk_stats]

theorem evictOne_disk_sub (cfg : CacheConfig α) (now : Int)
    (st : CacheState α) (k : String) (e : CacheEntry α) (save : Bool) :
    ∀ q ∈ (evictOne cfg now st k e save).disk_cache,
      q ∈ st.disk_cache ∨ q = (k, ⟨e.value, now, e.ttl⟩) := by
  unfold evictOne
  cases save
  · intro q hq
    exact .inl hq
  · intro q hq
    simp only at hq
    exact setDisk_disk_sub cfg st now k e.value e.ttl q hq

/-- Specification of the shared eviction loop: provided the candidate
list covers the hot tier exactly (each candidate is a present entry, the
candidate keys are distinct and every hot key is a candidate), the walk
keeps the keys distinct, frees at least the requested bytes unless it
empties the tier, lowers the `size_bytes` counter in lockstep with the
real byte total, only removes entries, and only moves hot values to
disk. -/
theorem evictWalk_spec (cfg : CacheConfig α) (now : Int) :
    ∀ (items : List (String × CacheEntry α × Bool)) (st : CacheState α)
      (freed needed : Int),
      keysND st.memory_cache →
      (∀ p ∈ items, (p.1, p.2.1) ∈ st.memory_cache) →
      (items.map (fun p => p.1)).Nodup →
      (∀ p ∈ st.memory_cache, p.1 ∈ items.map (fun p => p.1)) →
      keysND (evictWalk cfg now st items freed needed).memory_cache
      ∧ (((sumBytes (evictWalk cfg now st items freed needed).memory_cache : Int)
            ≤ (sumBytes st.memory_cache : Int) + freed - needed)
          ∨ (evictWalk cfg now st items freed needed).memory_cache = [])
      ∧ ((evictWalk cfg now st items freed needed).stats.size_bytes
            - (sumBytes (evictWalk cfg now st items freed needed).memory_cache : Int)
          = st.stats.size_bytes - (sumBytes st.memory_cache : Int))
      ∧ (∀ p ∈ (evictWalk cfg now st items freed needed).memory_cache,
          p ∈ st.memory_cache)
      ∧ (∀ q ∈ (evictWalk cfg now st items freed needed).disk_cache,
          q ∈ st.disk_cache
            ∨ ∃ p ∈ st.memory_cache, q = (p.1, ⟨p.2.value, now, p.2.ttl⟩)) := by
  intro items
  induction items with
  | nil =>
    intro st freed needed nd _ _ hcov
    have hmc : st.memory_cache = [] := by
      cases hmc : st.memory_cache with
      | nil => rfl
      | cons p rest =>
        have := hcov p (hmc ▸ List.mem_cons_self p rest)
        simp at this
    refine ⟨?_, .inr ?_, ?_, ?_, ?_⟩
    · simp [evictWalk, hmc, keysND]
    · simpa [evictWalk] using hmc
    · simp [evictWalk]
    · simp [evictWalk]
    · intro q hq
      exact .inl (by simpa [evictWalk] using hq)
  | cons hd rest ih =>
    obtain ⟨k, e, save⟩ := hd
    intro st freed needed nd hmem hnd hcov
    have hke : (k, e) ∈ st.memory_cache :=
      hmem (k, e, save) (List.mem_cons_self _ _)
    rw [List.map_cons] at hnd
    obtain ⟨hknotrest, hndrest⟩ := List.nodup_cons.1 hnd
    have h2mc : (evictOne cfg now st k e save).memory_cache
        = alErase k st.memory_cache := evictOne_memory_cache ..
    have nd2 : keysND (evictOne cfg now st k e save).memory_cache := by
      rw [h2mc]
      exact keysND_alErase nd
    have hsum2 : sumBytes (evictOne cfg now st k e save).memory_cache
        + e.size_bytes = sumBytes st.memory_cache := by
      rw [h2mc]
      exact sumBytes_alErase_add nd hke
    have hsum2I : (sumBytes (evictOne cfg now st k e save).memory_cache : Int)
        + (e.size_bytes : Int) = (sumBytes st.memory_cache : Int) := by
      exact_mod_cast hsum2
    have hstats2 : (evictOne cfg now st k e save).stats.size_bytes
        = st.stats.size_bytes - (e.size_bytes : Int) := evictOne_stats_size ..
    have hmem2 : ∀ p ∈ (evictOne cfg now st k e save).memory_cache,
        p ∈ st.memory_cache := by
      intro p hp
      rw [h2mc] at hp
      exact mem_of_mem_alErase hp
    have hdisk2 : ∀ q ∈ (evictOne cfg now st k e save).disk_cache,
        q ∈ st.disk_cache
          ∨ ∃ p ∈ st.memory_cache, q = (p.1, ⟨p.2.value, now, p.2.ttl⟩) := by
      intro q hq
      rcases evictOne_disk_sub cfg now st k e save q hq with h | h
      · exact .inl h
      · exact .inr ⟨(k, e), hke, h⟩
    simp only [evictWalk]
    by_cases hstop : freed + (e.size_bytes : Int) ≥ needed
    · simp only [if_pos hstop]
      refine ⟨nd2, .inl (by omega), by omega, hmem2, hdisk2⟩
    · simp only [if_neg hstop]
      have hmemR : ∀ p ∈ rest,
          (p.1, p.2.1) ∈ (evictOne cfg now st k e save).memory_cache := by
        intro p hp
        have hpm := hmem p (List.mem_cons_of_mem _ hp)
        have hpne : p.1 ≠ k := by
          intro h
          exact hknotrest (h ▸ List.mem_map.2 ⟨p, hp, rfl⟩)
        rw [h2mc]
        exact mem_alErase_of_ne hpne hpm
      have hcovR : ∀ p ∈ (evictOne cfg now st k e save).memory_cache,
          p.1 ∈ rest.map (fun p => p.1) := by
        intro p hp
        rw [h2mc] at hp
        have hmemall := hcov p (mem_of_mem_alErase hp)
        rw [List.map_cons] at hmemall
        have hpne : p.1 ≠ k := by
          intro h
          exact not_mem_keys_alErase nd
            (h ▸ List.mem_map.2 ⟨p, hp, rfl⟩)
        rcases List.mem_cons.1 hmemall with h | h
        · exact absurd h hpne
        · exact h
      obtain ⟨ndF, sumF, diffF, memF, diskF⟩ :=
        ih (evictOne cfg now st k e save) (freed + (e.size_bytes : Int))
          needed nd2 hmemR hndrest hcovR
      refine ⟨ndF, ?_, by omega, fun p hp => hmem2 p (memF p hp), ?_⟩
      · rcases sumF with h | h
        · exact .inl (by omega)
        · exact .inr h
      · intro q hq
        rcases diskF q hq with h | ⟨p, hp, hq2⟩
        · exact hdisk2 q h
        · exact .inr ⟨p, hmem2 p hp, hq2⟩

/-- The collecting pass of `_evict_lru` takes an initial segment of the
`OrderedDict`, stopping once its bytes (on top of `freed`) reach
`needed` or the dict is exhausted. -/
theorem collectLRUKeys_spec (mc : List (String × CacheEntry α)) :
    ∀ (freed needed : Int),
      ∃ pre suf, mc = pre ++ suf
        ∧ collectLRUKeys mc freed needed = pre.map Prod.fst
        ∧ (freed + (sumBytes pre : Int) ≥ needed ∨ suf = []) := by
  induction mc with
  | nil =>
    intro freed needed
    exact ⟨[], [], rfl, rfl, .inr rfl⟩
  | cons p rest ih =>
    intro freed needed
    obtain ⟨k, e⟩ := p
    by_cases hstop : freed + (e.size_bytes : Int) ≥ needed
    · refine ⟨[(k, e)], rest, rfl, ?_, .inl ?_⟩
      · simp [collectLRUKeys, hstop]
      · simpa [sumBytes] using hstop
    · obtain ⟨pre, suf, hsplit, hcollect, hdisj⟩ :=
        ih (freed + (e.size_bytes : Int)) needed
      refine ⟨(k, e) :: pre, suf, by simp [hsplit], ?_, ?_⟩
      · simp [collectLRUKeys, hstop, hcollect]
      · rcases hdisj with h | h
        · refine .inl ?_
          rw [sumBytes_cons]
          push_cast
          omega
        · exact .inr h

/-- The removal pass of `_evict_lru`, fed the keys of an initial segment,
removes exactly that segment, deducts its bytes from the counter and only
moves hot values to disk. -/
theorem removeLRUKeys_prefix (cfg : CacheConfig α) (now : Int) :
    ∀ (pre suf : List (String × CacheEntry α)) (st : CacheState α),
      st.memory_cache = pre ++ suf →
      keysND st.memory_cache →
      (removeLRUKeys cfg now st (pre.map Prod.fst)).memory_cache = suf
      ∧ (removeLRUKeys cfg now st (pre.map Prod.fst)).stats.size_bytes
          = st.stats.size_bytes - (sumBytes pre : Int)
      ∧ (∀ q ∈ (removeLRUKeys cfg now st (pre.map Prod.fst)).disk_cache,
          q ∈ st.disk_cache
            ∨ ∃ p ∈ st.memory_cache, q = (p.1, ⟨p.2.value, now, p.2.ttl⟩)) := by
  intro pre
  induction pre with
  | nil =>
    intro suf st hsplit _
    simp only [List.map_nil, removeLRUKeys]
    refine ⟨by simpa using hsplit, by simp [sumBytes], fun q hq => .inl hq⟩
  | cons p pre ih =>
    intro suf st hsplit nd
    obtain ⟨k, e⟩ := p
    have hlook : st.memory_cache.lookup k = some e := by
      rw [hsplit]
      simp [List.lookup_cons]
    have h2mc : (evictOne cfg now st k e
        (cfg.enable_disk_cache && e.access_count > 1)).memory_cache
        = pre ++ suf := by
      rw [evictOne_memory_cache, hsplit]
      simp [alErase]
    have nd2 : keysND (evictOne cfg now st k e
        (cfg.enable_disk_cache && e.access_count > 1)).memory_cache := by
      rw [h2mc]
      rw [hsplit] at nd
      exact (List.nodup_cons.1 nd).2
    obtain ⟨hmcF, hstatsF, hdiskF⟩ := ih suf _ h2mc nd2
    simp only [List.map_cons, removeLRUKeys, hlook]
    refine ⟨hmcF, ?_, ?_⟩
    · rw [hstatsF, evictOne_stats_size, sumBytes_cons]
      push_cast
      ring
    · intro q hq
      rcases hdiskF q hq with h | ⟨p2, hp2, hq2⟩
      · rcases evictOne_disk_sub cfg now st k e _ q h with h2 | h2
        · exact .inl h2
        · exact .inr ⟨(k, e), by rw [hsplit]; exact List.mem_cons_self _ _, h2⟩
      · refine .inr ⟨p2, ?_, hq2⟩
        rw [h2mc] at hp2
        rw [hsplit]
        exact List.mem_cons_of_mem _ hp2

/-- `_evict_lru` frees at least `needed` bytes (or empties the hot tier),
keeping the accounting aligned. -/
theorem evictLRU_spec (cfg : CacheConfig α) (st : CacheState α)
    (now needed : Int) (nd : keysND st.memory_cache) :
    keysND (evictLRU cfg st now needed).memory_cache
    ∧ (((sumBytes (evictLRU cfg st now needed).memory_cache : Int)
          ≤ (sumBytes st.memory_cache : Int) - needed)
        ∨ (evictLRU cfg st now needed).memory_cache = [])
    ∧ ((evictLRU cfg st now needed).stats.size_bytes
          - (sumBytes (evictLRU cfg st now needed).memory_cache : Int)
        = st.stats.size_bytes - (sumBytes st.memory_cache : Int))
    ∧ (∀ p ∈ (evictLRU cfg st now needed).memory_cache, p ∈ st.memory_cache)
    ∧ (∀ q ∈ (evictLRU cfg st now needed).disk_cache,
        q ∈ st.disk_cache
          ∨ ∃ p ∈ st.memory_cache, q = (p.1, ⟨p.2.value, now, p.2.ttl⟩)) := by
  obtain ⟨pre, suf, hsplit, hcollect, hdisj⟩ :=
    collectLRUKeys_spec st.memory_cache 0 needed
  unfold evictLRU
  rw [hcollect]
  obtain ⟨hmcF, hstatsF, hdiskF⟩ := removeLRUKeys_prefix cfg now pre suf st hsplit nd
  have hsum : sumBytes st.memory_cache = sumBytes pre + sumBytes suf := by
    rw [hsplit, sumBytes_append]
  refine ⟨?_, ?_, ?_, ?_, hdiskF⟩
  · rw [hmcF]
    have : keysND (pre ++ suf) := hsplit ▸ nd
    simp only [keysND, List.map_append] at this
    exact this.of_append_right
  · rcases hdisj with h | h
    · refine .inl ?_
      rw [hmcF]
      omega
    · refine .inr ?_
      rw [hmcF, h]
  · rw [hmcF, hstatsF]
    omega
  · intro p hp
    rw [hmcF] at hp
    rw [hsplit]
    exact List.mem_append_right _ hp

/-- `evictWalk` on any permutation of the hot tier (the sorted candidate
lists of the LFU / TTL / ADAPTIVE policies). -/
theorem evictWalk_spec_of_perm (cfg : CacheConfig α) (now : Int)
    (items : List (String × CacheEntry α × Bool)) (st : CacheState α)
    (needed : Int) (nd : keysND st.memory_cache)
    (hperm : (items.map (fun p => (p.1, p.2.1))).Perm st.memory_cache) :
    keysND (evictWalk cfg now st items 0 needed).memory_cache
    ∧ (((sumBytes (evictWalk cfg now st items 0 needed).memory_cache : Int)
          ≤ (sumBytes st.memory_cache : Int) - needed)
        ∨ (evictWalk cfg now st items 0 needed).memory_cache = [])
    ∧ ((evictWalk cfg now st items 0 needed).stats.size_bytes
          - (sumBytes (evictWalk cfg now st items 0 needed).memory_cache : Int)
        = st.stats.size_bytes - (sumBytes st.memory_cache : Int))
    ∧ (∀ p ∈ (evictWalk cfg now st items 0 needed).memory_cache,
        p ∈ st.memory_cache)
    ∧ (∀ q ∈ (evictWalk cfg now st items 0 needed).disk_cache,
        q ∈ st.disk_cache
          ∨ ∃ p ∈ st.memory_cache, q = (p.1, ⟨p.2.value, now, p.2.ttl⟩)) := by
  have hkeys : items.map (fun p => p.1)
      = (items.map (fun p => (p.1, p.2.1))).map Prod.fst := by
    rw [List.map_map]
    rfl
  have hmem : ∀ p ∈ items, (p.1, p.2.1) ∈ st.memory_cache := by
    intro p hp
    exact hperm.mem_iff.1 (List.mem_map.2 ⟨p, hp, rfl⟩)
  have hnd2 : (items.map fun p => p.1).Nodup := by
    rw [hkeys]
    exact ((hperm.map Prod.fst).nodup_iff).2 nd
  have hcov : ∀ p ∈ st.memory_cache, p.1 ∈ items.map (fun p => p.1) := by
    intro p hp
    rw [hkeys]
    exact List.mem_map.2 ⟨p, hperm.mem_iff.2 hp, rfl⟩
  obtain ⟨a, b, c, d, e⟩ := evictWalk_spec cfg now items st 0 needed nd hmem hnd2 hcov
  refine ⟨a, ?_, c, d, e⟩
  rcases b with b | b
  · exact .inl (by omega)
  · exact .inr b

theorem strip_pair_eq (l : List (String × CacheEntry α))
    (g : String × CacheEntry α → γ) :
    (l.map (fun p => (p.1, p.2, g p))).map (fun q => (q.1, q.2.1)) = l := by
  rw [List.map_map]
  have hcomp : ((fun q : String × CacheEntry α × γ => (q.1, q.2.1))
      ∘ (fun p : String × CacheEntry α => (p.1, p.2, g p))) = id := by
    funext p
    rfl
  rw [hcomp, List.map_id]

/-- `_evict_entries` under any of the four policies: frees at least
`needed` bytes (or empties the hot tier), keeps the byte counter aligned,
only removes entries, and only moves hot values to disk.  The TTL policy
needs every entry to carry a TTL (otherwise its candidate list is a
strict subset); that holds for every state reachable through `set`, which
substitutes the configured default TTL for an absent one. -/
theorem evictEntries_spec (cfg : CacheConfig α) (st : CacheState α)
    (now needed : Int) (nd : keysND st.memory_cache)
    (htt : ∀ p ∈ st.memory_cache, p.2.ttl.isSome) :
    keysND (evictEntries cfg st now needed).memory_cache
    ∧ (((sumBytes (evictEntries cfg st now needed).memory_cache : Int)
          ≤ (sumBytes st.memory_cache : Int) - needed)
        ∨ (evictEntries cfg st now needed).memory_cache = [])
    ∧ ((evictEntries cfg st now needed).stats.size_bytes
          - (sumBytes (evictEntries cfg st now needed).memory_cache : Int)
        = st.stats.size_bytes - (sumBytes st.memory_cache : Int))
    ∧ (∀ p ∈ (evictEntries cfg st now needed).memory_cache,
        p ∈ st.memory_cache)
    ∧ (∀ q ∈ (evictEntries cfg st now needed).disk_cache,
        q ∈ st.disk_cache
          ∨ ∃ p ∈ st.memory_cache, q = (p.1, ⟨p.2.value, now, p.2.ttl⟩)) := by
  unfold evictEntries
  cases cfg.strategy with
  | lru => exact evictLRU_spec cfg st now needed nd
  | lfu =>
    unfold evictLFU
    apply evictWalk_spec_of_perm cfg now _ st needed nd
    rw [strip_pair_eq]
    exact List.mergeSort_perm st.memory_cache _
  | ttl =>
    unfold evictTTLPolicy
    have hfil : st.memory_cache.filter (fun p => p.2.ttl.isSome)
        = st.memory_cache :=
      List.filter_eq_self.2 htt
    apply evictWalk_spec_of_perm cfg now _ st needed nd
    rw [strip_pair_eq, hfil]
    exact List.mergeSort_perm st.memory_cache _
  | adaptive =>
    unfold evictAdaptive
    apply evictWalk_spec_of_perm cfg now _ st needed nd
    rw [List.map_map]
    have hperm := (List.mergeSort_perm
      (st.memory_cache.map
        (fun p => (p.1, p.2, adaptiveScore st.memory_cache now p.2)))
      (fun a b => a.2.2 ≤ b.2.2)).map
      (fun q : String × CacheEntry α × ℚ => (q.1, q.2.1))
    rw [strip_pair_eq] at hperm
    exact hperm

/-- The store stage of `_set_memory` preserves the invariant, provided
the hot tier's bytes plus the incoming size fit in the budget (which the
eviction stage establishes). -/
theorem setMemoryStore_inv (cfg : CacheConfig α) (st1 : CacheState α)
    (now : Int) (key : String) (v : α) (ttl : Option Int)
    (nd1 : keysND st1.memory_cache)
    (hentries1 : ∀ p ∈ st1.memory_cache,
      p.2.size_bytes = cfg.sz p.2.value
        ∧ (p.2.size_bytes : Int) ≤ cfg.maxBytes ∧ p.2.ttl.isSome)
    (hdisk1 : ∀ q ∈ st1.disk_cache, (cfg.sz q.2.value : Int) ≤ cfg.maxBytes)
    (hG1 : (sumBytes st1.memory_cache : Int) ≤ st1.stats.size_bytes)
    (hG2 : (sumBytes st1.memory_cache : Int) + (cfg.sz v : Int) ≤ cfg.maxBytes)
    (httl : ttl.isSome) :
    CacheInv cfg (setMemoryStore cfg st1 now key v ttl (cfg.sz v)).2 := by
  have hszle : (cfg.sz v : Int) ≤ cfg.maxBytes := by
    have : (0 : Int) ≤ (sumBytes st1.memory_cache : Int) := Int.natCast_nonneg _
    omega
  unfold setMemoryStore
  cases hlk : st1.memory_cache.lookup key with
  | none =>
    have hsum : sumBytes (alReplace key
        { key := key, value := v, created_at := now, accessed_at := now,
          access_count := 0, ttl := ttl, size_bytes := cfg.sz v }
        st1.memory_cache) = sumBytes st1.memory_cache + cfg.sz v :=
      sumBytes_alReplace_of_lookup_none hlk
    simp only [hlk, recordAccessPattern]
    refine ⟨?_, ?_, ?_, ?_, ?_⟩
    · exact keysND_alReplace nd1
    · simp only [hsum]
      push_cast
      omega
    · simp only [hsum]
      push_cast
      omega
    · intro p hp
      rcases mem_alReplace hp with h | h
      · subst h
        exact ⟨rfl, hszle, httl⟩
      · exact hentries1 p h
    · exact hdisk1
  | some old =>
    have hsum : sumBytes (alReplace key
        { key := key, value := v, created_at := now, accessed_at := now,
          access_count := 0, ttl := ttl, size_bytes := cfg.sz v }
        st1.memory_cache) + old.size_bytes
        = sumBytes st1.memory_cache + cfg.sz v :=
      sumBytes_alReplace_of_lookup_some nd1 hlk
    simp only [hlk, recordAccessPattern]
    refine ⟨?_, ?_, ?_, ?_, ?_⟩
    · exact keysND_alReplace nd1
    · have := hsum
      push_cast at this ⊢
      omega
    · have := hsum
      push_cast at this ⊢
      omega
    · intro p hp
      rcases mem_alReplace hp with h | h
      · subst h
        exact ⟨rfl, hszle, httl⟩
      · exact hentries1 p h
    · exact hdisk1

/-- `_set_memory` preserves the invariant for a value whose serialized
size fits in the budget and an effective TTL. -/
theorem setMemory_inv (cfg : CacheConfig α) (st : CacheState α) (now : Int)
    (key : String) (v : α) (ttl : Option Int)
    (inv : CacheInv cfg st) (hsz : (cfg.sz v : Int) ≤ cfg.maxBytes)
    (httl : ttl.isSome) :
    CacheInv cfg (setMemory cfg st now key v ttl).2 := by
  unfold setMemory
  by_cases hev : wouldExceedMemoryLimit cfg st (cfg.sz v) = true
  · simp only [hev, eq_self_iff_true, if_true]
    obtain ⟨nd1, hfree, hdiff, hmem1, hdisk1⟩ :=
      evictEntries_spec cfg st now ((cfg.sz v : Int)) inv.nd
        (fun p hp => (inv.entries p hp).2.2)
    apply setMemoryStore_inv cfg _ now key v ttl nd1 _ _ _ _ httl
    · intro p hp
      exact inv.entries p (hmem1 p hp)
    · intro q hq
      rcases hdisk1 q hq with h | ⟨p, hp, hq2⟩
      · exact inv.disk q h
      · subst hq2
        have h := inv.entries p hp
        show (cfg.sz p.2.value : Int) ≤ cfg.maxBytes
        rw [← h.1]
        exact h.2.1
    · have h1 := inv.le_stats
      omega
    · rcases hfree with h | h
      · have := inv.budget
        omega
      · rw [h]
        simpa [sumBytes] using hsz
  · rw [Bool.not_eq_true] at hev
    simp only [hev, Bool.false_eq_true, if_false]
    have hev' : st.stats.size_bytes + (cfg.sz v : Int) ≤ cfg.maxBytes := by
      simp only [wouldExceedMemoryLimit, decide_eq_false_iff_not, not_lt] at hev
      omega
    apply setMemoryStore_inv cfg st now key v ttl inv.nd inv.entries inv.disk
      inv.le_stats _ httl
    have := inv.le_stats
    omega

theorem sumBytes_alErase_le (k : String) (l : List (String × CacheEntry α)) :
    sumBytes (alErase k l) ≤ sumBytes l := by
  induction l with
  | nil => simp [alErase]
  | cons p rest ih =>
    obtain ⟨k', v'⟩ := p
    by_cases hk : k' = k
    · simp only [alErase, if_pos hk, sumBytes_cons]
      omega
    · simp only [alErase, if_neg hk, sumBytes_cons]
      omega

theorem keysND_move_to_end (k : String) (e : CacheEntry α)
    {l : List (String × CacheEntry α)} (nd : keysND l) :
    keysND (alErase k l ++ [(k, e)]) := by
  simp only [keysND, List.map_append, List.map_cons, List.map_nil]
  refine List.Nodup.append (keysND_alErase nd) (List.nodup_singleton k) ?_
  intro a ha hb
  rw [List.mem_singleton] at hb
  subst hb
  exact not_mem_keys_alErase nd ha

theorem updateHitRate_size_bytes (s : CacheStats) :
    (updateHitRate s).size_bytes = s.size_bytes := by
  unfold updateHitRate
  by_cases h : 0 < s.hits + s.misses <;> simp [h]

theorem getFromDisk_memory_cache (cfg : CacheConfig α) (st : CacheState α)
    (now : Int) (key : String) :
    (getFromDisk cfg st now key).2.memory_cache = st.memory_cache := by
  unfold getFromDisk
  split
  · split
    · rfl
    · split
      · split <;> rfl
      · rfl
  · rfl

theorem getFromDisk_stats (cfg : CacheConfig α) (st : CacheState α)
    (now : Int) (key : String) :
    (getFromDisk cfg st now key).2.stats = st.stats := by
  unfold getFromDisk
  split
  · split
    · rfl
    · split
      · split <;> rfl
      · rfl
  · rfl

theorem getFromDisk_disk_sub (cfg : CacheConfig α) (st : CacheState α)
    (now : Int) (key : String) :
    ∀ q ∈ (getFromDisk cfg st now key).2.disk_cache, q ∈ st.disk_cache := by
  unfold getFromDisk
  split
  · split
    · exact fun q hq => hq
    · split
      · split
        · intro q hq
          exact mem_of_mem_alErase hq
        · exact fun q hq => hq
      · exact fun q hq => hq
  · exact fun q hq => hq

theorem getFromDisk_value_mem (cfg : CacheConfig α) (st : CacheState α)
    (now : Int) (key : String) (v : α)
    (h : (getFromDisk cfg st now key).1 = some v) :
    ∃ q ∈ st.disk_cache, q.2.value = v := by
  unfold getFromDisk at h
  by_cases hd : cfg.enable_disk_cache = true
  · rw [if_pos hd] at h
    cases hlk : st.disk_cache.lookup key with
    | none =>
      simp only [hlk] at h
      exact absurd h (by simp)
    | some d =>
      simp only [hlk] at h
      refine ⟨(key, d), lookup_mem hlk, ?_⟩
      cases httl : d.ttl with
      | some t =>
        simp only [httl] at h
        by_cases hexp : now - d.created_at > t
        · rw [if_pos hexp] at h
          exact absurd h (by simp)
        · rw [if_neg hexp] at h
          exact Option.some.inj h
      | none =>
        simp only [httl] at h
        exact Option.some.inj h
  · rw [if_neg hd] at h
    exact absurd h (by simp)

/-- `getFromDisk` preserves the invariant (it at most unlinks an expired
blob). -/
theorem getFromDisk_inv (cfg : CacheConfig α) (st : CacheState α)
    (now : Int) (key : String) (inv : CacheInv cfg st) :
    CacheInv cfg (getFromDisk cfg st now key).2 := by
  refine ⟨?_, ?_, ?_, ?_, ?_⟩
  · rw [getFromDisk_memory_cache]
    exact inv.nd
  · rw [getFromDisk_memory_cache]
    exact inv.budget
  · rw [getFromDisk_memory_cache, getFromDisk_stats]
    exact inv.le_stats
  · rw [getFromDisk_memory_cache]
    exact inv.entries
  · intro q hq
    exact inv.disk q (getFromDisk_disk_sub cfg st now key q hq)

/-- The miss tail of `get` preserves the invariant (it touches only the
miss counter, the hit rate and the prefetch queue). -/
theorem getMissTail_inv (cfg : CacheConfig α) (st : CacheState α)
    (key : String) (inv : CacheInv cfg st) :
    CacheInv cfg (getMissTail cfg st key) := by
  unfold getMissTail schedulePrefetch
  split
  · exact ⟨inv.nd, inv.budget,
      by simpa [updateHitRate_size_bytes] using inv.le_stats,
      inv.entries, inv.disk⟩
  · exact ⟨inv.nd, inv.budget,
      by simpa [updateHitRate_size_bytes] using inv.le_stats,
      inv.entries, inv.disk⟩

/-- `get` preserves the invariant. -/
theorem get_inv (cfg : CacheConfig α) (st : CacheState α) (now : Int)
    (key : String) (default : α)
    (inv : CacheInv cfg st) (hdt : cfg.default_ttl.isSome) :
    CacheInv cfg (IntelligentCache.get cfg st now key default).2 := by
  unfold IntelligentCache.get
  cases hlk : st.memory_cache.lookup key with
  | some entry =>
    by_cases hexp : entry.is_expired now = true
    · simp only [hexp, eq_self_iff_true, if_true]
      refine ⟨keysND_alErase inv.nd, ?_, ?_, ?_, inv.disk⟩
      · have h1 := sumBytes_alErase_le key st.memory_cache
        have h2 := inv.budget
        push_cast at h2 ⊢
        omega
      · have h1 := sumBytes_alErase_le key st.memory_cache
        have h2 := inv.le_stats
        push_cast at h2 ⊢
        omega
      · intro p hp
        exact inv.entries p (mem_of_mem_alErase hp)
    · rw [Bool.not_eq_true] at hexp
      simp only [hexp, Bool.false_eq_true, if_false]
      have hke : (key, entry) ∈ st.memory_cache := lookup_mem hlk
      have hsum : sumBytes (alErase key st.memory_cache)
          + entry.size_bytes = sumBytes st.memory_cache :=
        sumBytes_alErase_add inv.nd hke
      have hsum2 : sumBytes (alErase key st.memory_cache
          ++ [(key, entry.touch now)]) = sumBytes st.memory_cache := by
        rw [sumBytes_append, ← hsum]
        simp [sumBytes, CacheEntry.touch]
      refine ⟨?_, ?_, ?_, ?_, inv.disk⟩
      · simp only [recordAccessPattern]
        exact keysND_move_to_end key (entry.touch now) inv.nd
      · simp only [recordAccessPattern, hsum2]
        exact inv.budget
      · simp only [recordAccessPattern, hsum2, updateHitRate_size_bytes]
        exact inv.le_stats
      · simp only [recordAccessPattern]
        intro p hp
        rcases List.mem_append.1 hp with h | h
        · exact inv.entries p (mem_of_mem_alErase h)
        · rw [List.mem_singleton] at h
          subst h
          have := inv.entries (key, entry) hke
          simpa [CacheEntry.touch] using this
  | none =>
    by_cases hd : cfg.enable_disk_cache = true
    · simp only [hd, eq_self_iff_true, if_true]
      cases hdk : getFromDisk cfg st now key with
      | mk dv dst =>
        cases dv with
        | some v =>
          have hinv1 : CacheInv cfg dst := by
            have := getFromDisk_inv cfg st now key inv
            rwa [hdk] at this
          have hszv : (cfg.sz v : Int) ≤ cfg.maxBytes := by
            obtain ⟨q, hq, hqv⟩ := getFromDisk_value_mem cfg st now key v
              (by rw [hdk])
            rw [← hqv]
            exact inv.disk q hq
          have hinv2 := setMemory_inv cfg dst now key v cfg.default_ttl
            hinv1 hszv hdt
          exact ⟨hinv2.nd, hinv2.budget,
            by simpa [updateHitRate_size_bytes] using hinv2.le_stats,
            hinv2.entries, hinv2.disk⟩
        | none =>
          have hinv1 : CacheInv cfg dst := by
            have := getFromDisk_inv cfg st now key inv
            rwa [hdk] at this
          exact getMissTail_inv cfg dst key hinv1
    · rw [Bool.not_eq_true] at hd
      simp only [hd, Bool.false_eq_true, if_false]
      exact getMissTail_inv cfg st key inv

/-- `delete` preserves the invariant. -/
theorem delete_inv (cfg : CacheConfig α) (st : CacheState α) (key : String)
    (inv : CacheInv cfg st) :
    CacheInv cfg (IntelligentCache.delete cfg st key).2 := by
  unfold IntelligentCache.delete
  have hdel : ∀ st2 : CacheState α, CacheInv cfg st2 →
      CacheInv cfg (if cfg.enable_disk_cache = true then
        { st2 with disk_cache := alErase key st2.disk_cache } else st2) := by
    intro st2 inv2
    split
    · exact ⟨inv2.nd, inv2.budget, inv2.le_stats, inv2.entries,
        fun q hq => inv2.disk q (mem_of_mem_alErase hq)⟩
    · exact inv2
  cases hlk : st.memory_cache.lookup key with
  | none =>
    simp only [hlk]
    exact hdel st inv
  | some e =>
    simp only [hlk]
    apply hdel
    have hke : (key, e) ∈ st.memory_cache := lookup_mem hlk
    have hsum : sumBytes (alErase key st.memory_cache) + e.size_bytes
        = sumBytes st.memory_cache := sumBytes_alErase_add inv.nd hke
    refine ⟨keysND_alErase inv.nd, ?_, ?_, ?_, inv.disk⟩
    · have := inv.budget
      push_cast at this ⊢
      omega
    · have := inv.le_stats
      push_cast at this ⊢
      omega
    · intro p hp
      exact inv.entries p (mem_of_mem_alErase hp)

/-- The public `set` preserves the invariant when the value fits in the
budget and a default TTL is configured. -/
theorem set_inv (cfg : CacheConfig α) (st : CacheState α) (now : Int)
    (key : String) (v : α) (ttl : Option Int) (level : CacheLevel)
    (inv : CacheInv cfg st) (hsz : (cfg.sz v : Int) ≤ cfg.maxBytes)
    (hdt : cfg.default_ttl.isSome) :
    CacheInv cfg (IntelligentCache.set cfg st now key v ttl level).2 := by
  unfold IntelligentCache.set
  have httl : (match ttl with
      | none => cfg.default_ttl
      | some t => some t).isSome := by
    cases ttl with
    | none => exact hdt
    | some t => rfl
  cases level with
  | memory => exact setMemory_inv cfg st now key v _ inv hsz httl
  | distributed => exact setMemory_inv cfg st now key v _ inv hsz httl
  | disk =>
    dsimp only
    unfold setDisk
    split
    · dsimp only
      refine ⟨inv.nd, inv.budget, inv.le_stats, inv.entries, ?_⟩
      intro q hq
      simp only at hq
      rcases mem_alReplace hq with h | h
      · subst h
        exact hsz
      · exact inv.disk q h
    · exact inv

/-- One public operation preserves the invariant. -/
theorem stepOp_inv (cfg : CacheConfig α) (st : CacheState α)
    (op : CacheOp α) (now : Int)
    (inv : CacheInv cfg st) (hop : GoodOp cfg op)
    (hdt : cfg.default_ttl.isSome) :
    CacheInv cfg (stepOp cfg st (op, now)) := by
  cases op with
  | setOp k v ttl lvl => exact set_inv cfg st now k v ttl lvl inv hop hdt
  | getOp k d => exact get_inv cfg st now k d inv hdt
  | delOp k => exact delete_inv cfg st k inv

/-- Any sequence of budget-respecting public operations preserves the
invariant. -/
theorem runOps_inv (cfg : CacheConfig α) (hdt : cfg.default_ttl.isSome) :
    ∀ (ops : List (CacheOp α × Int)) (st : CacheState α),
      CacheInv cfg st → (∀ p ∈ ops, GoodOp cfg p.1) →
      CacheInv cfg (runOps cfg st ops) := by
  intro ops
  induction ops with
  | nil =>
    intro st inv _
    exact inv
  | cons op rest ih =>
    intro st inv hops
    obtain ⟨o, t⟩ := op
    exact ih _ (stepOp_inv cfg st o t inv (hops (o, t) (List.mem_cons_self _ _)) hdt)
      (fun p hp => hops p (List.mem_cons_of_mem _ hp))

/-- The freshly constructed cache satisfies the invariant. -/
theorem cacheInv_init (cfg : CacheConfig α) : CacheInv cfg ({} : CacheState α) := by
  refine ⟨?_, ?_, ?_, ?_, ?_⟩
  · simp [keysND]
  · simp only [sumBytes, List.map_nil, List.sum_nil, Nat.cast_zero,
      CacheConfig.maxBytes]
    positivity
  · simp [sumBytes]
  · intro p hp
    simp at hp
  · intro q hq
    simp at hq

/-- **C1, counterexample.** A `set` of a single value whose serialized
size (2 000 000 B) exceeds the whole budget (1 MiB = 1 048 576 B)
returns `True`, yet leaves the hot tier holding more bytes than
`max_memory_mb * 1024 * 1024`: eviction can only free what is already
stored, so the budget is violated at rest after the call returns. -/
theorem claim1_counterexample :
    (IntelligentCache.set c1Cfg {} 0 "k" 0 none .memory).1 = true
      ∧ (sumBytes (IntelligentCache.set c1Cfg {} 0 "k" 0
            none .memory).2.memory_cache : Int) > c1Cfg.maxBytes := by
  exact ⟨by decide, by decide⟩

/-- **C1, amended.** For every configuration with a default TTL set (the
default) and every sequence of timed `set`/`get`/`delete` operations in
which each stored value's serialized size fits within the memory budget,
the sum of `size_bytes` over the hot tier is at most
`max_memory_mb * 1024 * 1024` after the whole sequence — under all four
eviction policies.  (Without the size restriction the single oversized
`set` of the counterexample violates the budget; without a default TTL
the TTL policy's candidate list can exclude every entry and free
nothing.) -/
theorem claim1_hot_tier_budget (α : Type) (cfg : CacheConfig α)
    (hdt : cfg.default_ttl.isSome)
    (ops : List (CacheOp α × Int))
    (hops : ∀ p ∈ ops, GoodOp cfg p.1) :
    (sumBytes (runOps cfg {} ops).memory_cache : Int) ≤ cfg.maxBytes :=
  (runOps_inv cfg hdt ops {} (cacheInv_init cfg) hops).budget

/-- Witness for the amended C1 at the concrete operation sequence. -/
theorem claim1_hot_tier_budget_witness :
    (sumBytes (runOps c1WCfg {} c1WOps).memory_cache : Int) ≤ c1WCfg.maxBytes := by
  apply claim1_hot_tier_budget Nat c1WCfg rfl c1WOps
  intro p hp
  simp only [c1WOps, List.mem_cons, List.not_mem_nil, or_false] at hp
  rcases hp with rfl | rfl | rfl | rfl | rfl
  · show ((c1WCfg.sz 400000 : Nat) : Int) ≤ c1WCfg.maxBytes
    decide
  · show ((c1WCfg.sz 900000 : Nat) : Int) ≤ c1WCfg.maxBytes
    decide
  · trivial
  · trivial
  · show ((c1WCfg.sz 1000 : Nat) : Int) ≤ c1WCfg.maxBytes
    decide

end Aura

